import Mathlib

set_option maxRecDepth 100000

/-!
Verification of the consistent-hashing ring with virtual nodes
(`src/consistent-hashing`, Go implementation embedded in its README).

The Go program is shallowly embedded: Go maps become association lists
(`alookup` / `aupd` / `aerase` mirror map read, write and delete), `uint32`
values become `Nat` (CRC32 never exceeds `2^32`, so no masking is needed),
and the `(value, error)` pairs returned by `GetNode` / `RemoveNode` become
`Except` / a small result type.  Go map iteration order is not specified;
the embedding fixes the association-list order, which is immaterial for the
properties proved here (per-key decisions are independent).
-/

namespace CHSim

/-! ## Association lists modelling Go maps -/

/-- Go map read `m[k]`: value of the first entry with key `a`, if any. -/
def alookup {α β : Type} [DecidableEq α] : List (α × β) → α → Option β
  | [], _ => none
  | (k, v) :: t, a => if a = k then some v else alookup t a

/-- Go map write `m[k] = v`: update the entry in place, or append a new one. -/
def aupd {α β : Type} [DecidableEq α] : List (α × β) → α → β → List (α × β)
  | [], a, b => [(a, b)]
  | (k, v) :: t, a, b => if a = k then (k, b) :: t else (k, v) :: aupd t a b

/-- Go map delete `delete(m, k)`: remove every entry with key `a`. -/
def aerase {α β : Type} [DecidableEq α] (l : List (α × β)) (a : α) : List (α × β) :=
  l.filter (fun e => decide (¬ e.1 = a))

/-! ## The hash function: CRC32 (IEEE), as used by `hashKey` in the source -/

/-- UTF-8 encoding of a single code point, as a list of byte values. -/
def utf8EncodeChar (c : Nat) : List Nat :=
  if c < 0x80 then [c]
  else if c < 0x800 then [0xC0 + c / 64, 0x80 + c % 64]
  else if c < 0x10000 then [0xE0 + c / 4096, 0x80 + (c / 64) % 64, 0x80 + c % 64]
  else [0xF0 + c / 262144, 0x80 + (c / 4096) % 64, 0x80 + (c / 64) % 64, 0x80 + c % 64]

/-- Byte sequence of a string, mirroring Go's `[]byte(key)` conversion. -/
def strBytes (s : String) : List Nat :=
  (s.data.map Char.toNat).flatMap utf8EncodeChar

/-- Reflected polynomial of CRC32 (IEEE). -/
def crc32Poly : Nat := 0xEDB88320

/-- One bit-step of the reflected CRC32 algorithm. -/
def crc32Step (c : Nat) : Nat :=
  if c % 2 = 1 then Nat.xor (c / 2) crc32Poly else c / 2

/-- Fold one byte into the CRC accumulator (eight bit-steps). -/
def crc32Byte (crc b : Nat) : Nat :=
  (List.range 8).foldl (fun c _ => crc32Step c) (Nat.xor crc b)

/-- CRC32 (IEEE) of a byte list, the checksum computed by
`crc32.ChecksumIEEE` in the source. -/
def crc32 (bytes : List Nat) : Nat :=
  Nat.xor (bytes.foldl crc32Byte 0xFFFFFFFF) 0xFFFFFFFF

/-- The source's `hashKey`: `crc32.ChecksumIEEE([]byte(key))`. -/
def hashKey (key : String) : Nat :=
  crc32 (strBytes key)

/-- VNode key string `fmt.Sprintf("%s#%d", nodeName, i)`. -/
def vnodeKey (nodeName : String) (i : Nat) : String :=
  nodeName ++ "#" ++ Nat.repr i

/-! ## The `ConsistentHashing` struct and its operations -/

/-- The `ConsistentHashing` struct of the source: the sorted ring of VNode
positions, the position-to-owner map, the per-node key/value stores, and the
configured VNode count. -/
structure ConsistentHashing where
  ring : List Nat
  hashMap : List (Nat × String)
  nodes : List (String × List (String × String))
  vnodes : Nat
deriving DecidableEq, Repr

/-- Error taxonomy of the operations (spec section 7). -/
inductive ChErr where
  | emptyRing
  | nodeAlreadyExists
  | nodeNotFound
deriving DecidableEq, Repr

/-- The source's `NewConsistentHashing` constructor. -/
def NewConsistentHashing (vnodes : Nat) : ConsistentHashing :=
  { ring := [], hashMap := [], nodes := [], vnodes := vnodes }

/-- Go's `sort.Search` loop: binary search for the least index in `[i, j)`
satisfying `f`, returning `j` when none does (given `f` monotone).  The
loop runs while `i < j` and `j - i` shrinks every iteration, so a fuel of
the initial `j - i` (or more) reproduces it exactly; fuel makes the
definition structurally recursive and hence kernel-computable. -/
def sortSearchAux (f : Nat → Bool) : Nat → Nat → Nat → Nat
  | 0, i, _ => i
  | fuel + 1, i, j =>
    if i < j then
      let m := (i + j) / 2
      if f m then sortSearchAux f fuel i m else sortSearchAux f fuel (m + 1) j
    else i

/-- Go's `sort.Search(n, f)`. -/
def sortSearch (n : Nat) (f : Nat → Bool) : Nat :=
  sortSearchAux f n 0 n

/-- The source's `GetNode`: binary search for the first ring position at or
after the key hash, wrapping to index 0, then the owner from `hashMap`. -/
def GetNode (ch : ConsistentHashing) (key : String) : Except ChErr String :=
  if ch.ring.length = 0 then Except.error ChErr.emptyRing
  else
    let keyHash := hashKey key
    let idx := sortSearch ch.ring.length (fun i => decide (keyHash ≤ ch.ring.getD i 0))
    let idx2 := if idx = ch.ring.length then 0 else idx
    let nodeHash := ch.ring.getD idx2 0
    Except.ok ((alookup ch.hashMap nodeHash).getD "")

/-- Go's `targetNode, _ := ch.GetNode(key)`: the string component with the
error discarded (the zero value `""` when the ring is empty). -/
def getNodeStr (ch : ConsistentHashing) (key : String) : String :=
  match GetNode ch key with
  | Except.ok n => n
  | Except.error _ => ""

/-- Step 1 of `AddNode`: the loop appending the new node's VNode hashes to
the ring and recording their owner in `hashMap`. -/
def addVnodes (ch : ConsistentHashing) (nodeName : String) : ConsistentHashing :=
  (List.range ch.vnodes).foldl
    (fun c i =>
      let hash := hashKey (vnodeKey nodeName i)
      { c with ring := c.ring ++ [hash], hashMap := aupd c.hashMap hash nodeName })
    ch

/-- Step 2 of `AddNode`: the scan collecting, per source node (skipping the
new node), the keys whose owner under the updated ring is the new node. -/
def collectMoves (ch : ConsistentHashing) (nodeName : String) : List (String × String) :=
  ch.nodes.flatMap
    (fun s =>
      if s.1 = nodeName then []
      else (s.2.filter (fun kv => decide (getNodeStr ch kv.1 = nodeName))).map
        (fun kv => (s.1, kv.1)))

/-- Step 3 of `AddNode`: apply the pending moves, reading the value from the
source store, writing it into the new node's store and deleting the source
entry, exactly in the order of the three Go statements. -/
def applyMoves (ch : ConsistentHashing) (nodeName : String)
    (moves : List (String × String)) : ConsistentHashing :=
  moves.foldl
    (fun c m =>
      let value := (alookup ((alookup c.nodes m.1).getD []) m.2).getD ""
      let c1 := { c with
        nodes := aupd c.nodes nodeName (aupd ((alookup c.nodes nodeName).getD []) m.2 value) }
      { c1 with
        nodes := aupd c1.nodes m.1 (aerase ((alookup c1.nodes m.1).getD []) m.2) })
    ch

/-- The source's `AddNode`: early return (with the already-exists signal)
when the name is registered, otherwise register an empty store, add the
VNodes, re-sort the ring, and migrate the keys claimed by the new node. -/
def AddNode (ch : ConsistentHashing) (nodeName : String) :
    ConsistentHashing × Option ChErr :=
  if (alookup ch.nodes nodeName).isSome then
    (ch, some ChErr.nodeAlreadyExists)
  else
    let ch1 := { ch with nodes := aupd ch.nodes nodeName [] }
    let ch2 := addVnodes ch1 nodeName
    let ch3 := { ch2 with ring := List.insertionSort (fun a b => a ≤ b) ch2.ring }
    (applyMoves ch3 nodeName (collectMoves ch3 nodeName), none)

/-- Outcome of `RemoveNode`: the not-found error, a completed call with the
new state, or the fault hit when the redistribution loop writes into
`ch.nodes[newNode]` for an unregistered `newNode` (a nil-map write, a
runtime panic in Go). -/
inductive RemoveResult where
  | notFound
  | fault
  | ok (ch : ConsistentHashing)
deriving DecidableEq, Repr

/-- Step 4 of `RemoveNode`: move every snapshotted record to the store of
the node `GetNode` now names (error discarded), faulting on an unregistered
target store. -/
def redistribute (ch : ConsistentHashing) : List (String × String) → RemoveResult
  | [] => RemoveResult.ok ch
  | e :: rest =>
    let newNode := getNodeStr ch e.1
    match alookup ch.nodes newNode with
    | none => RemoveResult.fault
    | some store =>
      redistribute { ch with nodes := aupd ch.nodes newNode (aupd store e.1 e.2) } rest

/-- The source's `RemoveNode`: validate the name, snapshot its store, strip
its VNode hashes from `hashMap` and the ring, drop the node entry, then
redistribute the snapshot under the updated ring. -/
def RemoveNode (ch : ConsistentHashing) (nodeName : String) : RemoveResult :=
  match alookup ch.nodes nodeName with
  | none => RemoveResult.notFound
  | some dataToMove =>
    let hashesToRemove := (List.range ch.vnodes).map (fun i => hashKey (vnodeKey nodeName i))
    let ch1 := { ch with
      hashMap := ch.hashMap.filter (fun e => decide (¬ e.1 ∈ hashesToRemove)),
      ring := ch.ring.filter (fun h => decide (¬ h ∈ hashesToRemove)),
      nodes := aerase ch.nodes nodeName }
    redistribute ch1 dataToMove

/-- The seeding step of the source's `main`:
`node, _ := ch.GetNode(key); ch.nodes[node][key] = value`.  The `none`
result models the nil-map write hit when the resolved node is
unregistered. -/
def distributeKey (ch : ConsistentHashing) (key value : String) :
    Option ConsistentHashing :=
  let node := getNodeStr ch key
  match alookup ch.nodes node with
  | none => none
  | some store =>
    some { ch with nodes := aupd ch.nodes node (aupd store key value) }

end CHSim

namespace CHSim

/-! ## Association-list lemmas -/

section AList

variable {α β : Type} [DecidableEq α]

@[simp] theorem alookup_nil {a : α} : alookup ([] : List (α × β)) a = none := rfl

theorem alookup_cons {k : α} {v : β} {t : List (α × β)} {a : α} :
    alookup ((k, v) :: t) a = if a = k then some v else alookup t a := rfl

@[simp] theorem aupd_nil {a : α} {b : β} : aupd ([] : List (α × β)) a b = [(a, b)] := rfl

theorem aupd_cons {k : α} {v : β} {t : List (α × β)} {a : α} {b : β} :
    aupd ((k, v) :: t) a b = if a = k then (k, b) :: t else (k, v) :: aupd t a b := rfl

@[simp] theorem alookup_aupd_self (l : List (α × β)) (a : α) (b : β) :
    alookup (aupd l a b) a = some b := by
  induction l with
  | nil => simp [alookup]
  | cons e t ih =>
    obtain ⟨k, v⟩ := e
    by_cases h : a = k <;> simp [aupd_cons, alookup_cons, h, ih]

theorem alookup_aupd_ne (l : List (α × β)) {x a : α} (b : β) (h : x ≠ a) :
    alookup (aupd l a b) x = alookup l x := by
  induction l with
  | nil => simp [alookup, h]
  | cons e t ih =>
    obtain ⟨k, v⟩ := e
    by_cases hk : a = k
    · subst hk; simp [aupd_cons, alookup_cons, h]
    · by_cases hx : x = k <;> simp [aupd_cons, alookup_cons, hk, hx, ih]

theorem mem_aupd {l : List (α × β)} {a : α} {b : β} {e : α × β}
    (he : e ∈ aupd l a b) : e ∈ l ∨ e = (a, b) := by
  induction l with
  | nil => simpa using he
  | cons f t ih =>
    obtain ⟨k, v⟩ := f
    by_cases h : a = k
    · subst h
      rcases (by simpa [aupd_cons] using he : e = (a, b) ∨ e ∈ t) with h1 | h1
      · right; exact h1
      · left; exact List.mem_cons_of_mem _ h1
    · rcases (by simpa [aupd_cons, h] using he) with h1 | h1
      · left; simp [h1]
      · rcases ih h1 with h2 | h2
        · left; exact List.mem_cons_of_mem _ h2
        · right; exact h2

theorem mem_aupd_of_ne {l : List (α × β)} {a : α} {b : β} {e : α × β}
    (he : e ∈ l) (h : e.1 ≠ a) : e ∈ aupd l a b := by
  induction l with
  | nil => simp at he
  | cons f t ih =>
    obtain ⟨k, v⟩ := f
    by_cases hk : a = k
    · subst hk
      simp only [aupd_cons, if_pos rfl]
      rcases List.mem_cons.mp he with h1 | h1
      · exact absurd (congrArg Prod.fst h1) h
      · exact List.mem_cons_of_mem _ h1
    · rcases List.mem_cons.mp he with h1 | h1
      · simp [aupd_cons, hk, h1]
      · simp only [aupd_cons, if_neg hk]
        exact List.mem_cons_of_mem _ (ih h1)

theorem aupd_eq_append {l : List (α × β)} {a : α} (b : β)
    (h : ¬ a ∈ l.map Prod.fst) : aupd l a b = l ++ [(a, b)] := by
  induction l with
  | nil => simp
  | cons f t ih =>
    obtain ⟨k, v⟩ := f
    simp only [List.map_cons, List.mem_cons] at h
    push_neg at h
    simp [aupd_cons, h.1, ih h.2]

theorem keys_aupd_of_mem {l : List (α × β)} {a : α} (b : β)
    (h : a ∈ l.map Prod.fst) : (aupd l a b).map Prod.fst = l.map Prod.fst := by
  induction l with
  | nil => simp at h
  | cons f t ih =>
    obtain ⟨k, v⟩ := f
    by_cases hk : a = k
    · simp [aupd_cons, hk]
    · simp only [List.map_cons, List.mem_cons] at h
      rcases h with h | h
      · exact absurd h hk
      · simp [aupd_cons, hk, ih h]

theorem keys_aupd_sub {l : List (α × β)} {a x : α} {b : β}
    (h : x ∈ (aupd l a b).map Prod.fst) : x ∈ l.map Prod.fst ∨ x = a := by
  rcases List.mem_map.mp h with ⟨e, he, hx⟩
  rcases mem_aupd he with h1 | h1
  · left; exact hx ▸ List.mem_map_of_mem _ h1
  · right; rw [← hx, h1]

theorem nodup_keys_aupd {l : List (α × β)} {a : α} {b : β}
    (h : (l.map Prod.fst).Nodup) : ((aupd l a b).map Prod.fst).Nodup := by
  induction l with
  | nil => simp
  | cons f t ih =>
    obtain ⟨k, v⟩ := f
    simp only [List.map_cons, List.nodup_cons] at h
    by_cases hk : a = k
    · simp only [aupd_cons, if_pos hk, List.map_cons, List.nodup_cons]
      exact h
    · simp only [aupd_cons, if_neg hk, List.map_cons, List.nodup_cons]
      refine ⟨fun hmem => ?_, ih h.2⟩
      rcases keys_aupd_sub hmem with h1 | h1
      · exact h.1 h1
      · exact hk h1.symm

@[simp] theorem aerase_nil {a : α} : aerase ([] : List (α × β)) a = [] := rfl

theorem mem_aerase {l : List (α × β)} {a : α} {e : α × β} :
    e ∈ aerase l a ↔ e ∈ l ∧ e.1 ≠ a := by
  simp [aerase, List.mem_filter]

theorem aerase_cons_self {v : β} {t : List (α × β)} {a : α} :
    aerase ((a, v) :: t) a = aerase t a := by
  simp [aerase, List.filter_cons]

theorem aerase_cons_ne {k : α} {v : β} {t : List (α × β)} {a : α} (hk : k ≠ a) :
    aerase ((k, v) :: t) a = (k, v) :: aerase t a := by
  simp [aerase, List.filter_cons, hk]

@[simp] theorem alookup_aerase_self (l : List (α × β)) (a : α) :
    alookup (aerase l a) a = none := by
  induction l with
  | nil => rfl
  | cons f t ih =>
    obtain ⟨k, v⟩ := f
    by_cases hk : k = a
    · rw [hk, aerase_cons_self]; exact ih
    · rw [aerase_cons_ne hk, alookup_cons, if_neg (fun hx => hk hx.symm)]
      exact ih

theorem alookup_aerase_ne (l : List (α × β)) {x a : α} (h : x ≠ a) :
    alookup (aerase l a) x = alookup l x := by
  induction l with
  | nil => rfl
  | cons f t ih =>
    obtain ⟨k, v⟩ := f
    by_cases hk : k = a
    · have hxk : x ≠ k := fun hx => h (hx.trans hk)
      rw [hk, aerase_cons_self, ih, alookup_cons, if_neg (hk ▸ hxk)]
    · rw [aerase_cons_ne hk, alookup_cons, alookup_cons, ih]

theorem keys_aerase {l : List (α × β)} {a : α} :
    (aerase l a).map Prod.fst = (l.map Prod.fst).filter (fun x => decide (¬ x = a)) := by
  induction l with
  | nil => rfl
  | cons f t ih =>
    obtain ⟨k, v⟩ := f
    by_cases hk : k = a <;> simp [aerase, List.filter_cons, hk] at ih ⊢ <;> exact ih

theorem nodup_keys_aerase {l : List (α × β)} {a : α}
    (h : (l.map Prod.fst).Nodup) : ((aerase l a).map Prod.fst).Nodup := by
  rw [keys_aerase]; exact h.filter _

theorem alookup_eq_some_of_mem {l : List (α × β)} {a : α} {b : β}
    (hn : (l.map Prod.fst).Nodup) (he : (a, b) ∈ l) : alookup l a = some b := by
  induction l with
  | nil => simp at he
  | cons f t ih =>
    obtain ⟨k, v⟩ := f
    simp only [List.map_cons, List.nodup_cons] at hn
    rcases List.mem_cons.mp he with h1 | h1
    · injection h1 with h2 h3
      subst h2; subst h3
      simp [alookup_cons]
    · have hka : a ≠ k := by
        intro hak
        exact hn.1 (hak ▸ List.mem_map_of_mem Prod.fst h1)
      simp [alookup_cons, hka, ih hn.2 h1]

theorem mem_of_alookup_eq_some {l : List (α × β)} {a : α} {b : β}
    (h : alookup l a = some b) : (a, b) ∈ l := by
  induction l with
  | nil => simp [alookup] at h
  | cons f t ih =>
    obtain ⟨k, v⟩ := f
    rw [alookup_cons] at h
    by_cases hk : a = k
    · rw [if_pos hk] at h
      injection h with h2
      subst h2; subst hk
      exact List.mem_cons_self _ _
    · rw [if_neg hk] at h
      exact List.mem_cons_of_mem _ (ih h)

theorem alookup_isSome_iff_mem_keys {l : List (α × β)} {a : α} :
    (alookup l a).isSome ↔ a ∈ l.map Prod.fst := by
  induction l with
  | nil => simp [alookup]
  | cons f t ih =>
    obtain ⟨k, v⟩ := f
    by_cases hk : a = k <;> simp [alookup_cons, hk, ih]

theorem alookup_eq_none_iff {l : List (α × β)} {a : α} :
    alookup l a = none ↔ ¬ a ∈ l.map Prod.fst := by
  rw [← alookup_isSome_iff_mem_keys, Option.eq_none_iff_forall_not_mem]
  cases alookup l a <;> simp

theorem alookup_filter_key (l : List (α × β)) (q : α → Bool) (a : α) :
    alookup (l.filter (fun e => q e.1)) a =
      if q a then alookup l a else none := by
  induction l with
  | nil => simp [alookup]
  | cons f t ih =>
    obtain ⟨k, v⟩ := f
    by_cases hk : a = k
    · subst hk
      by_cases hq : q a <;> simp [List.filter_cons, hq, alookup_cons, ih]
    · by_cases hq : q k <;> by_cases hqa : q a <;>
        simp [List.filter_cons, hq, hqa, alookup_cons, hk, ih]

theorem length_aupd_of_mem {l : List (α × β)} {a : α} (b : β)
    (h : a ∈ l.map Prod.fst) : (aupd l a b).length = l.length := by
  induction l with
  | nil => simp at h
  | cons f t ih =>
    obtain ⟨k, v⟩ := f
    by_cases hk : a = k
    · simp [aupd_cons, hk]
    · simp only [List.map_cons, List.mem_cons] at h
      rcases h with h | h
      · exact absurd h hk
      · simp [aupd_cons, hk, ih h]

theorem length_aupd_of_not_mem {l : List (α × β)} {a : α} (b : β)
    (h : ¬ a ∈ l.map Prod.fst) : (aupd l a b).length = l.length + 1 := by
  rw [aupd_eq_append b h]; simp

theorem length_aerase_of_mem {l : List (α × β)} {a : α}
    (hn : (l.map Prod.fst).Nodup) (h : a ∈ l.map Prod.fst) :
    (aerase l a).length + 1 = l.length := by
  induction l with
  | nil => simp at h
  | cons f t ih =>
    obtain ⟨k, v⟩ := f
    simp only [List.map_cons, List.nodup_cons] at hn
    by_cases hk : k = a
    · subst hk
      have : aerase ((k, v) :: t) k = aerase t k := by simp [aerase, List.filter_cons]
      rw [this]
      have : aerase t k = t := by
        apply List.filter_eq_self.mpr
        intro e he
        simp only [decide_eq_true_eq]
        intro hek
        exact hn.1 (hek ▸ List.mem_map_of_mem Prod.fst he)
      simp [this]
    · simp only [List.map_cons, List.mem_cons] at h
      rcases h with h | h
      · exact absurd h.symm hk
      · have : aerase ((k, v) :: t) a = (k, v) :: aerase t a := by
          simp [aerase, List.filter_cons, hk]
        rw [this]
        simp only [List.length_cons]
        rw [← ih hn.2 h]

theorem aerase_of_not_mem {l : List (α × β)} {a : α}
    (h : ¬ a ∈ l.map Prod.fst) : aerase l a = l := by
  apply List.filter_eq_self.mpr
  intro e he
  simp only [decide_eq_true_eq]
  intro hek
  exact h (hek ▸ List.mem_map_of_mem Prod.fst he)

end AList

end CHSim

namespace CHSim

/-! ## Spec-side resolution: first position at or past the hash, else wrap -/

/-- Minimum of a list of naturals, `none` on the empty list. -/
def listMin : List Nat → Option Nat
  | [] => none
  | x :: xs =>
    match listMin xs with
    | none => some x
    | some m => some (min x m)

/-- Least position greater than or equal to `h` (the spec's "first position
`>= keyHash` in the ordered sequence"). -/
def leastGE (l : List Nat) (h : Nat) : Option Nat :=
  listMin (l.filter (fun p => decide (h ≤ p)))

/-- Position selected by the spec's ownership rule: the least position at or
past `h`, wrapping to the smallest position, `none` on an empty ring. -/
def posOf (l : List Nat) (h : Nat) : Option Nat :=
  match leastGE l h with
  | some p => some p
  | none => listMin l

/-- Resolution as worded by the spec: binary-search result replaced by the
abstract "first position `>= keyHash`, else the smallest position", with the
owner read off the position-to-owner mapping and `EmptyRing` on an empty
ring. -/
def resolveSpec (ch : ConsistentHashing) (key : String) : Except ChErr String :=
  match posOf ch.ring (hashKey key) with
  | none => Except.error ChErr.emptyRing
  | some p => Except.ok ((alookup ch.hashMap p).getD "")

/-- Characterisation of the selected position: either the least position at
or past `h`, or (when every position is below `h`) the least position. -/
def IsRes (l : List Nat) (h p : Nat) : Prop :=
  (p ∈ l ∧ h ≤ p ∧ ∀ q ∈ l, h ≤ q → p ≤ q) ∨
  (p ∈ l ∧ (∀ q ∈ l, q < h) ∧ ∀ q ∈ l, p ≤ q)

theorem listMin_eq_none_iff {l : List Nat} : listMin l = none ↔ l = [] := by
  induction l with
  | nil => simp [listMin]
  | cons x xs ih =>
    simp only [listMin]
    cases listMin xs <;> simp

theorem listMin_spec {l : List Nat} {m : Nat} (h : listMin l = some m) :
    m ∈ l ∧ ∀ x ∈ l, m ≤ x := by
  induction l generalizing m with
  | nil => simp [listMin] at h
  | cons x xs ih =>
    simp only [listMin] at h
    cases hxs : listMin xs with
    | none =>
      rw [hxs] at h
      injection h with h1
      subst h1
      have : xs = [] := listMin_eq_none_iff.mp hxs
      subst this
      simp
    | some m0 =>
      rw [hxs] at h
      injection h with h1
      subst h1
      obtain ⟨hm0, hle⟩ := ih hxs
      constructor
      · rcases Nat.le_total x m0 with hx | hx
        · simp [min_eq_left hx]
        · have : min x m0 = m0 := min_eq_right hx
          rw [this]
          exact List.mem_cons_of_mem _ hm0
      · intro y hy
        rcases List.mem_cons.mp hy with h1 | h1
        · subst h1; exact min_le_left _ _
        · exact le_trans (min_le_right _ _) (hle _ h1)

theorem listMin_eq_some_of (l : List Nat) {m : Nat}
    (hm : m ∈ l) (hle : ∀ x ∈ l, m ≤ x) : listMin l = some m := by
  cases hl : listMin l with
  | none =>
    rw [listMin_eq_none_iff.mp hl] at hm
    simp at hm
  | some m0 =>
    obtain ⟨hm0, hle0⟩ := listMin_spec hl
    have h1 : m ≤ m0 := hle _ hm0
    have h2 : m0 ≤ m := hle0 _ hm
    rw [le_antisymm h1 h2]

theorem posOf_eq_none_iff {l : List Nat} {h : Nat} :
    posOf l h = none ↔ l = [] := by
  constructor
  · intro hp
    unfold posOf at hp
    cases hq : leastGE l h with
    | some p => rw [hq] at hp; simp at hp
    | none => rw [hq] at hp; exact listMin_eq_none_iff.mp hp
  · intro hl
    subst hl
    rfl

theorem posOf_isRes {l : List Nat} {h p : Nat} (hp : posOf l h = some p) :
    IsRes l h p := by
  unfold posOf at hp
  cases hq : leastGE l h with
  | some p0 =>
    rw [hq] at hp
    injection hp with hp1
    subst hp1
    obtain ⟨hm, hle⟩ := listMin_spec hq
    rw [List.mem_filter] at hm
    left
    refine ⟨hm.1, by simpa using hm.2, fun q hq1 hq2 => ?_⟩
    exact hle q (List.mem_filter.mpr ⟨hq1, by simpa using hq2⟩)
  | none =>
    rw [hq] at hp
    obtain ⟨hm, hle⟩ := listMin_spec hp
    right
    refine ⟨hm, fun q hq1 => ?_, hle⟩
    by_contra hlt
    have hqmem : q ∈ l.filter (fun p => decide (h ≤ p)) :=
      List.mem_filter.mpr ⟨hq1, by simpa using Nat.le_of_not_lt hlt⟩
    have : l.filter (fun p => decide (h ≤ p)) = [] := listMin_eq_none_iff.mp hq
    rw [this] at hqmem
    simp at hqmem

theorem isRes_posOf {l : List Nat} {h p : Nat} (hp : IsRes l h p) :
    posOf l h = some p := by
  rcases hp with ⟨hm, hge, hle⟩ | ⟨hm, hlt, hle⟩
  · have : leastGE l h = some p := by
      apply listMin_eq_some_of
      · exact List.mem_filter.mpr ⟨hm, by simpa using hge⟩
      · intro x hx
        rw [List.mem_filter] at hx
        exact hle x hx.1 (by simpa using hx.2)
    unfold posOf
    rw [this]
  · have hfil : l.filter (fun p => decide (h ≤ p)) = [] := by
      rw [List.filter_eq_nil_iff]
      intro a ha
      simpa using Nat.not_le.mpr (hlt a ha)
    have : leastGE l h = none := by
      unfold leastGE
      rw [hfil]
      rfl
    unfold posOf
    rw [this]
    exact listMin_eq_some_of l hm hle

theorem posOf_mem {l : List Nat} {h p : Nat} (hp : posOf l h = some p) : p ∈ l := by
  rcases posOf_isRes hp with h1 | h1 <;> exact h1.1

/-- Resolution in a superset list either picks one of the added positions or
agrees with resolution in the base list. -/
theorem posOf_superset {l l2 H : List Nat} {h p : Nat}
    (hmem : ∀ x, x ∈ l2 ↔ x ∈ l ∨ x ∈ H)
    (hp : posOf l2 h = some p) (hpH : ¬ p ∈ H) : posOf l h = some p := by
  apply isRes_posOf
  rcases posOf_isRes hp with ⟨hm, hge, hle⟩ | ⟨hm, hlt, hle⟩
  · have hpl : p ∈ l := by
      rcases (hmem p).mp hm with h1 | h1
      · exact h1
      · exact absurd h1 hpH
    exact Or.inl ⟨hpl, hge, fun q hq1 hq2 => hle q ((hmem q).mpr (Or.inl hq1)) hq2⟩
  · have hpl : p ∈ l := by
      rcases (hmem p).mp hm with h1 | h1
      · exact h1
      · exact absurd h1 hpH
    exact Or.inr ⟨hpl, fun q hq1 => hlt q ((hmem q).mpr (Or.inl hq1)),
      fun q hq1 => hle q ((hmem q).mpr (Or.inl hq1))⟩

/-- Resolution survives removal of positions that exclude the selected one. -/
theorem posOf_filter_not_mem {l R : List Nat} {h p : Nat}
    (hp : posOf l h = some p) (hpR : ¬ p ∈ R) :
    posOf (l.filter (fun x => decide (¬ x ∈ R))) h = some p := by
  apply isRes_posOf
  have hsub : ∀ q, q ∈ l.filter (fun x => decide (¬ x ∈ R)) → q ∈ l := by
    intro q hq
    exact (List.mem_filter.mp hq).1
  have hpmem : p ∈ l.filter (fun x => decide (¬ x ∈ R)) := by
    rcases posOf_isRes hp with h1 | h1 <;>
      exact List.mem_filter.mpr ⟨h1.1, by simpa using hpR⟩
  rcases posOf_isRes hp with ⟨hm, hge, hle⟩ | ⟨hm, hlt, hle⟩
  · exact Or.inl ⟨hpmem, hge, fun q hq1 hq2 => hle q (hsub q hq1) hq2⟩
  · exact Or.inr ⟨hpmem, fun q hq1 => hlt q (hsub q hq1), fun q hq1 => hle q (hsub q hq1)⟩

end CHSim

namespace CHSim

/-! ## Correctness of the binary search and the resolution bridge -/

theorem sortSearchAux_spec (f : Nat → Bool) (n : Nat)
    (hmono : ∀ a b, a ≤ b → b < n → f a = true → f b = true) :
    ∀ (fuel i j : Nat), i ≤ j → j ≤ n → j - i ≤ fuel →
      (∀ k, k < i → f k = false) → (∀ k, j ≤ k → k < n → f k = true) →
      i ≤ sortSearchAux f fuel i j ∧ sortSearchAux f fuel i j ≤ j ∧
      (∀ k, k < sortSearchAux f fuel i j → f k = false) ∧
      (sortSearchAux f fuel i j < n → f (sortSearchAux f fuel i j) = true) := by
  intro fuel
  induction fuel with
  | zero =>
    intro i j hij hjn hfuel hlow hhigh
    have hieq : i = j := by omega
    subst hieq
    exact ⟨le_refl _, le_refl _, hlow, fun hn => hhigh i (le_refl _) hn⟩
  | succ fuel ih =>
    intro i j hij hjn hfuel hlow hhigh
    by_cases hlt : i < j
    · have hm1 : i ≤ (i + j) / 2 := by omega
      have hm2 : (i + j) / 2 < j := by omega
      by_cases hf : f ((i + j) / 2) = true
      · have hstep : sortSearchAux f (fuel + 1) i j = sortSearchAux f fuel i ((i + j) / 2) := by
          simp only [sortSearchAux, if_pos hlt, hf, if_true]
        rw [hstep]
        have := ih i ((i + j) / 2) hm1 (by omega) (by omega) hlow
          (fun k hk hkn => hmono _ k hk hkn hf)
        exact ⟨this.1, le_trans this.2.1 (le_of_lt hm2), this.2.2.1, this.2.2.2⟩
      · have hstep : sortSearchAux f (fuel + 1) i j = sortSearchAux f fuel ((i + j) / 2 + 1) j := by
          simp only [sortSearchAux, if_pos hlt]
          rw [if_neg hf]
        rw [hstep]
        have hlow2 : ∀ k, k < (i + j) / 2 + 1 → f k = false := by
          intro k hk
          by_cases hki : k < i
          · exact hlow k hki
          · cases hfk : f k with
            | false => rfl
            | true =>
              exact absurd (hmono k ((i + j) / 2) (by omega) (by omega) hfk)
                (by simpa using hf)
        have := ih ((i + j) / 2 + 1) j (by omega) hjn (by omega) hlow2 hhigh
        exact ⟨by omega, this.2.1, this.2.2.1, this.2.2.2⟩
    · have hieq : i = j := by omega
      subst hieq
      have hstep : sortSearchAux f (fuel + 1) i i = i := by
        simp [sortSearchAux]
      rw [hstep]
      exact ⟨le_refl _, le_refl _, hlow, fun hn => hhigh i (le_refl _) hn⟩

/-- GetNode reads only the ring and the position-to-owner mapping. -/
theorem GetNode_ext {ch ch2 : ConsistentHashing} (hr : ch.ring = ch2.ring)
    (hh : ch.hashMap = ch2.hashMap) (key : String) :
    GetNode ch key = GetNode ch2 key := by
  unfold GetNode
  rw [hr, hh]

/-- On a sorted ring, the binary-search implementation of `GetNode` computes
exactly the resolution the spec describes. -/
theorem GetNode_eq_resolveSpec (ch : ConsistentHashing) (key : String)
    (hs : List.Sorted (· ≤ ·) ch.ring) : GetNode ch key = resolveSpec ch key := by
  by_cases hr : ch.ring.length = 0
  · have hnil : ch.ring = [] := List.length_eq_zero.mp hr
    unfold GetNode resolveSpec
    rw [if_pos hr, hnil]
    rfl
  · have hmono : ∀ a b, a ≤ b → b < ch.ring.length →
        (fun i => decide (hashKey key ≤ ch.ring.getD i 0)) a = true →
        (fun i => decide (hashKey key ≤ ch.ring.getD i 0)) b = true := by
      intro a b hab hb ha
      have hha : hashKey key ≤ ch.ring.getD a 0 := by simpa using ha
      have hget : ch.ring.getD a 0 ≤ ch.ring.getD b 0 := by
        rw [List.getD_eq_get _ _ (lt_of_le_of_lt hab hb), List.getD_eq_get _ _ hb]
        exact hs.rel_get_of_le (by exact hab)
      simpa using le_trans hha hget
    obtain ⟨h1, h2, h3, h4⟩ := sortSearchAux_spec _ ch.ring.length hmono
      ch.ring.length 0 ch.ring.length (Nat.zero_le _) (le_refl _) (by omega)
      (fun k hk => absurd hk (Nat.not_lt_zero k)) (fun k hk hkn => by omega)
    have hlen : 0 < ch.ring.length := Nat.pos_of_ne_zero hr
    by_cases hrn :
        sortSearchAux (fun i => decide (hashKey key ≤ ch.ring.getD i 0))
          ch.ring.length 0 ch.ring.length = ch.ring.length
    · -- wrap-around: no position at or past the hash; owner of the head
      have hall : ∀ q ∈ ch.ring, q < hashKey key := by
        intro q hq
        obtain ⟨⟨j, hj⟩, hget⟩ := List.mem_iff_get.mp hq
        have hfj := h3 j (by omega)
        rw [← hget]
        have : ¬ hashKey key ≤ ch.ring.getD j 0 := by simpa using hfj
        rw [List.getD_eq_get _ _ hj] at this
        omega
      have hpos : posOf ch.ring (hashKey key) = some (ch.ring.get ⟨0, hlen⟩) := by
        apply isRes_posOf
        right
        refine ⟨List.get_mem _ _ _, hall, fun q hq => ?_⟩
        obtain ⟨⟨j, hj⟩, hget⟩ := List.mem_iff_get.mp hq
        rw [← hget]
        exact hs.rel_get_of_le (by exact Nat.zero_le j)
      unfold GetNode resolveSpec
      rw [if_neg hr, hpos]
      simp only [sortSearch]
      rw [if_pos hrn, List.getD_eq_get _ _ hlen]
    · -- a position at or past the hash exists; owner of the least such
      have hrlt :
          sortSearchAux (fun i => decide (hashKey key ≤ ch.ring.getD i 0))
            ch.ring.length 0 ch.ring.length < ch.ring.length :=
        lt_of_le_of_ne h2 hrn
      have hfr := h4 hrlt
      have hge : hashKey key ≤ ch.ring.get ⟨_, hrlt⟩ := by
        have : hashKey key ≤ ch.ring.getD
            (sortSearchAux (fun i => decide (hashKey key ≤ ch.ring.getD i 0))
              ch.ring.length 0 ch.ring.length) 0 := by simpa using hfr
        rwa [List.getD_eq_get _ _ hrlt] at this
      have hpos : posOf ch.ring (hashKey key) = some (ch.ring.get ⟨_, hrlt⟩) := by
        apply isRes_posOf
        left
        refine ⟨List.get_mem _ _ _, hge, fun q hq hq2 => ?_⟩
        obtain ⟨⟨j, hj⟩, hget⟩ := List.mem_iff_get.mp hq
        by_cases hjr : j < sortSearchAux (fun i => decide (hashKey key ≤ ch.ring.getD i 0))
            ch.ring.length 0 ch.ring.length
        · exfalso
          have hfj := h3 j hjr
          have : ¬ hashKey key ≤ ch.ring.getD j 0 := by simpa using hfj
          rw [List.getD_eq_get _ _ hj, hget] at this
          exact this hq2
        · rw [← hget]
          exact hs.rel_get_of_le (by exact Nat.le_of_not_lt hjr)
      unfold GetNode resolveSpec
      rw [if_neg hr, hpos]
      simp only [sortSearch]
      rw [if_neg hrn, List.getD_eq_get _ _ hrlt]

end CHSim

namespace CHSim

/-! ## Cluster-state predicates -/

/-- Total number of stored records, summed over all node stores. -/
def totalRecords (ch : ConsistentHashing) : Nat :=
  (ch.nodes.map (fun p => p.2.length)).sum

/-- The central placement invariant (spec section 3): every stored record
lives on the node `GetNode` currently names for its key. -/
def PlacementInv (ch : ConsistentHashing) : Prop :=
  ∀ p ∈ ch.nodes, ∀ e ∈ p.2, GetNode ch e.1 = Except.ok p.1

/-- Structural well-formedness of a cluster state.  Every state reachable
from the constructor satisfies it: map keys are unique, the ring is kept
sorted, ring positions and `hashMap` keys coincide, owners recorded in
`hashMap` are registered nodes, and every registered node owns at least one
`hashMap` entry. -/
structure WF (ch : ConsistentHashing) : Prop where
  nodesNodup : (ch.nodes.map Prod.fst).Nodup
  storesNodup : ∀ p ∈ ch.nodes, (p.2.map Prod.fst).Nodup
  hashNodup : (ch.hashMap.map Prod.fst).Nodup
  ringSorted : List.Sorted (· ≤ ·) ch.ring
  ringSub : ∀ h ∈ ch.ring, h ∈ ch.hashMap.map Prod.fst
  hashSub : ∀ e ∈ ch.hashMap, e.1 ∈ ch.ring
  ownersReg : ∀ e ∈ ch.hashMap, e.2 ∈ ch.nodes.map Prod.fst
  presence : ∀ p ∈ ch.nodes, ∃ e ∈ ch.hashMap, e.2 = p.1

/-- Pairwise disjointness of the per-node stores: no key is stored on two
different nodes.  A consequence of `PlacementInv`, and an invariant of all
reachable states. -/
def Disj (ch : ConsistentHashing) : Prop :=
  ch.nodes.Pairwise (fun a b => ∀ k ∈ a.2.map Prod.fst, ¬ k ∈ b.2.map Prod.fst)

/-- States reachable from the constructor through the exported operations
and the seeding step of `main`. -/
inductive Reachable : ConsistentHashing → Prop where
  | init (vnodes : Nat) : Reachable (NewConsistentHashing vnodes)
  | add {ch : ConsistentHashing} (name : String) :
      Reachable ch → Reachable (AddNode ch name).1
  | remove {ch ch2 : ConsistentHashing} (name : String) :
      Reachable ch → RemoveNode ch name = RemoveResult.ok ch2 → Reachable ch2
  | seed {ch ch2 : ConsistentHashing} (key value : String) :
      Reachable ch → distributeKey ch key value = some ch2 → Reachable ch2

instance {ε γ : Type} [DecidableEq ε] [DecidableEq γ] : DecidableEq (Except ε γ) :=
  fun a b =>
    match a, b with
    | Except.error x, Except.error y =>
      if h : x = y then isTrue (by rw [h]) else isFalse (by simp [h])
    | Except.ok x, Except.ok y =>
      if h : x = y then isTrue (by rw [h]) else isFalse (by simp [h])
    | Except.error _, Except.ok _ => isFalse (by simp)
    | Except.ok _, Except.error _ => isFalse (by simp)

instance (ch : ConsistentHashing) : Decidable (PlacementInv ch) := by
  unfold PlacementInv; infer_instance

instance (ch : ConsistentHashing) : Decidable (Disj ch) := by
  unfold Disj; infer_instance

/-! ## Basic facts about `GetNode` and `getNodeStr` -/

theorem GetNode_error_iff (ch : ConsistentHashing) (key : String) :
    GetNode ch key = Except.error ChErr.emptyRing ↔ ch.ring = [] := by
  by_cases hr : ch.ring.length = 0
  · have hnil : ch.ring = [] := List.length_eq_zero.mp hr
    unfold GetNode
    simp [hr, hnil]
  · have hne : ch.ring ≠ [] := fun h => hr (by rw [h]; rfl)
    unfold GetNode
    rw [if_neg hr]
    simp [hne]

theorem GetNode_ok_of_ring_ne {ch : ConsistentHashing} (key : String)
    (h : ch.ring ≠ []) : GetNode ch key = Except.ok (getNodeStr ch key) := by
  have hlen : ¬ ch.ring.length = 0 := by
    intro h0; exact h (List.length_eq_zero.mp h0)
  unfold getNodeStr GetNode
  rw [if_neg hlen]

theorem getNodeStr_eq_of_ok {ch : ConsistentHashing} {key nm : String}
    (h : GetNode ch key = Except.ok nm) : getNodeStr ch key = nm := by
  unfold getNodeStr
  rw [h]

theorem GetNode_isOk_cases (ch : ConsistentHashing) (key : String) :
    GetNode ch key = Except.error ChErr.emptyRing ∨
    GetNode ch key = Except.ok (getNodeStr ch key) := by
  by_cases h : ch.ring = []
  · exact Or.inl ((GetNode_error_iff ch key).mpr h)
  · exact Or.inr (GetNode_ok_of_ring_ne key h)

/-! ## Decomposition of `AddNode` and `RemoveNode` -/

/-- State of `AddNode` after registering the empty store, adding the VNodes
and re-sorting the ring, immediately before the migration scan. -/
def addMid (ch : ConsistentHashing) (nodeName : String) : ConsistentHashing :=
  let ch1 := { ch with nodes := aupd ch.nodes nodeName [] }
  let ch2 := addVnodes ch1 nodeName
  { ch2 with ring := List.insertionSort (fun a b => a ≤ b) ch2.ring }

/-- The VNode hash positions a node with `v` VNodes occupies. -/
def vnodeHashes (nodeName : String) (v : Nat) : List Nat :=
  (List.range v).map (fun i => hashKey (vnodeKey nodeName i))

/-- State of `RemoveNode` after stripping the VNodes from `hashMap` and the
ring and deleting the node entry, immediately before redistribution. -/
def removeMid (ch : ConsistentHashing) (nodeName : String) : ConsistentHashing :=
  let hashesToRemove := (List.range ch.vnodes).map (fun i => hashKey (vnodeKey nodeName i))
  { ch with
    hashMap := ch.hashMap.filter (fun e => decide (¬ e.1 ∈ hashesToRemove)),
    ring := ch.ring.filter (fun h => decide (¬ h ∈ hashesToRemove)),
    nodes := aerase ch.nodes nodeName }

theorem AddNode_eq_exists {ch : ConsistentHashing} {nodeName : String}
    (h : (alookup ch.nodes nodeName).isSome) :
    AddNode ch nodeName = (ch, some ChErr.nodeAlreadyExists) := by
  unfold AddNode
  rw [if_pos h]

theorem AddNode_eq_go {ch : ConsistentHashing} {nodeName : String}
    (h : ¬ (alookup ch.nodes nodeName).isSome) :
    AddNode ch nodeName =
      (applyMoves (addMid ch nodeName) nodeName (collectMoves (addMid ch nodeName) nodeName),
        none) := by
  unfold AddNode addMid
  rw [if_neg h]

theorem RemoveNode_eq_notFound {ch : ConsistentHashing} {nodeName : String}
    (h : alookup ch.nodes nodeName = none) :
    RemoveNode ch nodeName = RemoveResult.notFound := by
  unfold RemoveNode
  rw [h]

theorem RemoveNode_eq_go {ch : ConsistentHashing} {nodeName : String}
    {data : List (String × String)} (h : alookup ch.nodes nodeName = some data) :
    RemoveNode ch nodeName = redistribute (removeMid ch nodeName) data := by
  unfold RemoveNode removeMid
  rw [h]

theorem addVnodes_nodes (ch : ConsistentHashing) (nodeName : String) :
    (addVnodes ch nodeName).nodes = ch.nodes ∧
    (addVnodes ch nodeName).vnodes = ch.vnodes := by
  unfold addVnodes
  generalize List.range ch.vnodes = l
  induction l generalizing ch with
  | nil => exact ⟨rfl, rfl⟩
  | cons i t ih => exact ih _

theorem addVnodes_ring (ch : ConsistentHashing) (nodeName : String) :
    (addVnodes ch nodeName).ring =
      ch.ring ++ (List.range ch.vnodes).map (fun i => hashKey (vnodeKey nodeName i)) := by
  unfold addVnodes
  generalize List.range ch.vnodes = l
  induction l generalizing ch with
  | nil => simp
  | cons i t ih =>
    simp only [List.foldl_cons, List.map_cons]
    rw [ih]
    simp

theorem addVnodes_hashMap (ch : ConsistentHashing) (nodeName : String) (x : Nat) :
    alookup (addVnodes ch nodeName).hashMap x =
      if x ∈ (List.range ch.vnodes).map (fun i => hashKey (vnodeKey nodeName i))
      then some nodeName else alookup ch.hashMap x := by
  unfold addVnodes
  generalize List.range ch.vnodes = l
  induction l generalizing ch with
  | nil => simp
  | cons i t ih =>
    simp only [List.foldl_cons, List.map_cons]
    rw [ih]
    by_cases hx : x ∈ t.map (fun i => hashKey (vnodeKey nodeName i))
    · simp [hx]
    · by_cases hxi : x = hashKey (vnodeKey nodeName i)
      · simp [hx, hxi]
      · simp only [if_neg hx, List.mem_cons]
        rw [alookup_aupd_ne _ _ hxi]
        simp [hxi, hx]

theorem addMid_nodes (ch : ConsistentHashing) (nodeName : String) :
    (addMid ch nodeName).nodes = aupd ch.nodes nodeName [] := by
  unfold addMid
  exact (addVnodes_nodes _ _).1

theorem addMid_vnodes (ch : ConsistentHashing) (nodeName : String) :
    (addMid ch nodeName).vnodes = ch.vnodes := by
  unfold addMid
  exact (addVnodes_nodes _ _).2

theorem addMid_hashMap (ch : ConsistentHashing) (nodeName : String) (x : Nat) :
    alookup (addMid ch nodeName).hashMap x =
      if x ∈ vnodeHashes nodeName ch.vnodes then some nodeName
      else alookup ch.hashMap x := by
  unfold addMid vnodeHashes
  exact addVnodes_hashMap _ _ _

theorem addMid_ring_sorted (ch : ConsistentHashing) (nodeName : String) :
    List.Sorted (· ≤ ·) (addMid ch nodeName).ring := by
  unfold addMid
  exact List.sorted_insertionSort _ _

theorem addMid_ring_mem (ch : ConsistentHashing) (nodeName : String) (x : Nat) :
    x ∈ (addMid ch nodeName).ring ↔
      x ∈ ch.ring ∨ x ∈ vnodeHashes nodeName ch.vnodes := by
  unfold addMid vnodeHashes
  rw [(List.perm_insertionSort _ _).mem_iff]
  rw [addVnodes_ring]
  simp

end CHSim

namespace CHSim

/-! ## Lemmas about the migration loops -/

/-- Store of a node, the empty list when the node is unregistered. -/
def dataOf (ch : ConsistentHashing) (n : String) : List (String × String) :=
  (alookup ch.nodes n).getD []

theorem applyMoves_fields (name : String) :
    ∀ (ms : List (String × String)) (c : ConsistentHashing),
      (applyMoves c name ms).ring = c.ring ∧
      (applyMoves c name ms).hashMap = c.hashMap ∧
      (applyMoves c name ms).vnodes = c.vnodes := by
  intro ms
  induction ms with
  | nil => exact fun c => ⟨rfl, rfl, rfl⟩
  | cons m t ih =>
    intro c
    simp only [applyMoves, List.foldl_cons]
    exact ih _

theorem redistribute_fields :
    ∀ (data : List (String × String)) (c c2 : ConsistentHashing),
      redistribute c data = RemoveResult.ok c2 →
      c2.ring = c.ring ∧ c2.hashMap = c.hashMap ∧ c2.vnodes = c.vnodes ∧
      c2.nodes.map Prod.fst = c.nodes.map Prod.fst := by
  intro data
  induction data with
  | nil =>
    intro c c2 h
    injection h with h1
    subst h1
    exact ⟨rfl, rfl, rfl, rfl⟩
  | cons e rest ih =>
    intro c c2 h
    simp only [redistribute] at h
    cases hl : alookup c.nodes (getNodeStr c e.1) with
    | none => rw [hl] at h; exact absurd h (by simp)
    | some store =>
      rw [hl] at h
      obtain ⟨h1, h2, h3, h4⟩ := ih _ _ h
      refine ⟨h1, h2, h3, ?_⟩
      rw [h4]
      simp only
      exact keys_aupd_of_mem _ (alookup_isSome_iff_mem_keys.mp (by rw [hl]; rfl))

theorem redistribute_getNodeStr {c c1 : ConsistentHashing}
    (hr : c1.ring = c.ring) (hh : c1.hashMap = c.hashMap) (key : String) :
    getNodeStr c1 key = getNodeStr c key := by
  unfold getNodeStr
  rw [GetNode_ext hr hh]

/-- Backward characterisation of redistribution: every entry of a
post-redistribution store was already there, or is a snapshot record whose
resolved owner is that store's node. -/
theorem redistribute_mem :
    ∀ (data : List (String × String)) (c c2 : ConsistentHashing),
      redistribute c data = RemoveResult.ok c2 →
      ∀ q st2, alookup c2.nodes q = some st2 →
        ∃ st, alookup c.nodes q = some st ∧
          ∀ e ∈ st2, e ∈ st ∨ (e ∈ data ∧ getNodeStr c e.1 = q) := by
  intro data
  induction data with
  | nil =>
    intro c c2 h q st2 hq
    injection h with h1
    subst h1
    exact ⟨st2, hq, fun e he => Or.inl he⟩
  | cons e rest ih =>
    intro c c2 h q st2 hq
    simp only [redistribute] at h
    cases hl : alookup c.nodes (getNodeStr c e.1) with
    | none => rw [hl] at h; exact absurd h (by simp)
    | some store =>
      rw [hl] at h
      obtain ⟨st1, hst1, hmem1⟩ := ih _ _ h q st2 hq
      have hgs : ∀ key, getNodeStr
          { c with nodes := aupd c.nodes (getNodeStr c e.1) (aupd store e.1 e.2) } key =
          getNodeStr c key := fun key => redistribute_getNodeStr rfl rfl key
      by_cases hqw : q = getNodeStr c e.1
      · subst hqw
        rw [alookup_aupd_self] at hst1
        injection hst1 with hst1
        subst hst1
        refine ⟨store, hl, fun f hf => ?_⟩
        rcases hmem1 f hf with h1 | h1
        · rcases mem_aupd h1 with h2 | h2
          · exact Or.inl h2
          · right
            constructor
            · rw [h2]; exact List.mem_cons_self _ _
            · rw [h2]
        · right
          exact ⟨List.mem_cons_of_mem _ h1.1, by rw [← hgs f.1]; exact h1.2⟩
      · rw [alookup_aupd_ne _ _ hqw] at hst1
        refine ⟨st1, hst1, fun f hf => ?_⟩
        rcases hmem1 f hf with h1 | h1
        · exact Or.inl h1
        · right
          exact ⟨List.mem_cons_of_mem _ h1.1, by rw [← hgs f.1]; exact h1.2⟩

/-- Entries whose key is not among the redistributed keys survive
redistribution in place. -/
theorem redistribute_pres :
    ∀ (data : List (String × String)) (c c2 : ConsistentHashing),
      redistribute c data = RemoveResult.ok c2 →
      ∀ q st e, alookup c.nodes q = some st → e ∈ st →
        ¬ e.1 ∈ data.map Prod.fst →
        ∃ st2, alookup c2.nodes q = some st2 ∧ e ∈ st2 := by
  intro data
  induction data with
  | nil =>
    intro c c2 h q st e hq he _
    injection h with h1
    subst h1
    exact ⟨st, hq, he⟩
  | cons d rest ih =>
    intro c c2 h q st e hq he hk
    simp only [List.map_cons, List.mem_cons] at hk
    push_neg at hk
    simp only [redistribute] at h
    cases hl : alookup c.nodes (getNodeStr c d.1) with
    | none => rw [hl] at h; exact absurd h (by simp)
    | some store =>
      rw [hl] at h
      by_cases hqw : q = getNodeStr c d.1
      · subst hqw
        rw [hq] at hl
        injection hl with hl
        subst hl
        exact ih _ _ h _ _ e (by rw [alookup_aupd_self]) (mem_aupd_of_ne he hk.1) hk.2
      · exact ih _ _ h _ _ e (by rw [alookup_aupd_ne _ _ hqw]; exact hq) he hk.2

/-- Every redistributed record lands (with its value) in the store of the
node resolved for its key. -/
theorem redistribute_forward :
    ∀ (data : List (String × String)) (c c2 : ConsistentHashing),
      redistribute c data = RemoveResult.ok c2 →
      (data.map Prod.fst).Nodup →
      ∀ e ∈ data, ∃ st2, alookup c2.nodes (getNodeStr c e.1) = some st2 ∧ e ∈ st2 := by
  intro data
  induction data with
  | nil =>
    intro c c2 h _ e he
    simp at he
  | cons d rest ih =>
    intro c c2 h hnd e he
    simp only [List.map_cons, List.nodup_cons] at hnd
    simp only [redistribute] at h
    cases hl : alookup c.nodes (getNodeStr c d.1) with
    | none => rw [hl] at h; exact absurd h (by simp)
    | some store =>
      rw [hl] at h
      have hgs : ∀ key, getNodeStr
          { c with nodes := aupd c.nodes (getNodeStr c d.1) (aupd store d.1 d.2) } key =
          getNodeStr c key := fun key => redistribute_getNodeStr rfl rfl key
      rcases List.mem_cons.mp he with h1 | h1
      · subst h1
        have hmem : e ∈ aupd store e.1 e.2 := by
          apply mem_of_alookup_eq_some (a := e.1) (b := e.2)
          exact alookup_aupd_self _ _ _
        obtain ⟨st2, hst2, hest2⟩ := redistribute_pres rest _ _ h (getNodeStr c e.1)
          (aupd store e.1 e.2) e (by rw [alookup_aupd_self]) hmem
          (by
            intro hmem2
            exact hnd.1 (by simpa using hmem2))
        exact ⟨st2, hst2, hest2⟩
      · obtain ⟨st2, hst2, hest2⟩ := ih _ _ h hnd.2 e h1
        rw [hgs e.1] at hst2
        exact ⟨st2, hst2, hest2⟩

end CHSim

namespace CHSim

/-- One iteration of the `AddNode` move loop (the three Go statements). -/
def stepMove (name : String) (c : ConsistentHashing) (m : String × String) :
    ConsistentHashing :=
  let value := (alookup ((alookup c.nodes m.1).getD []) m.2).getD ""
  let c1 := { c with
    nodes := aupd c.nodes name (aupd ((alookup c.nodes name).getD []) m.2 value) }
  { c1 with
    nodes := aupd c1.nodes m.1 (aerase ((alookup c1.nodes m.1).getD []) m.2) }

theorem applyMoves_cons (c : ConsistentHashing) (name : String)
    (m : String × String) (ms : List (String × String)) :
    applyMoves c name (m :: ms) = applyMoves (stepMove name c m) name ms := rfl

theorem stepMove_nodes {c : ConsistentHashing} {name : String} {m : String × String}
    (h : m.1 ≠ name) :
    (stepMove name c m).nodes =
      aupd (aupd c.nodes name
          (aupd (dataOf c name) m.2 ((alookup (dataOf c m.1) m.2).getD "")))
        m.1 (aerase (dataOf c m.1) m.2) := by
  unfold stepMove dataOf
  simp only
  rw [alookup_aupd_ne _ _ h]

theorem stepMove_fields (c : ConsistentHashing) (name : String) (m : String × String) :
    (stepMove name c m).ring = c.ring ∧ (stepMove name c m).hashMap = c.hashMap ∧
    (stepMove name c m).vnodes = c.vnodes :=
  ⟨rfl, rfl, rfl⟩

theorem sum_lens_aupd (l : List (String × List (String × String))) {n : String}
    {st : List (String × String)} (st2 : List (String × String))
    (h : alookup l n = some st) :
    ((aupd l n st2).map (fun p => p.2.length)).sum + st.length =
      (l.map (fun p => p.2.length)).sum + st2.length := by
  induction l with
  | nil => simp [alookup] at h
  | cons f t ih =>
    obtain ⟨k, v⟩ := f
    rw [alookup_cons] at h
    by_cases hk : n = k
    · rw [if_pos hk] at h
      injection h with h
      subst h
      simp only [aupd_cons, if_pos hk, List.map_cons, List.sum_cons]
      omega
    · rw [if_neg hk] at h
      have := ih h
      simp only [aupd_cons, if_neg hk, List.map_cons, List.sum_cons]
      omega

theorem redistribute_total :
    ∀ (data : List (String × String)) (c c2 : ConsistentHashing),
      redistribute c data = RemoveResult.ok c2 →
      (data.map Prod.fst).Nodup →
      (∀ e ∈ data, ∀ p ∈ c.nodes, ¬ e.1 ∈ p.2.map Prod.fst) →
      totalRecords c2 = totalRecords c + data.length := by
  intro data
  induction data with
  | nil =>
    intro c c2 h _ _
    injection h with h1
    subst h1
    simp
  | cons e rest ih =>
    intro c c2 h hnd hfresh
    simp only [List.map_cons, List.nodup_cons] at hnd
    simp only [redistribute] at h
    cases hl : alookup c.nodes (getNodeStr c e.1) with
    | none => rw [hl] at h; exact absurd h (by simp)
    | some store =>
      rw [hl] at h
      have hmem : (getNodeStr c e.1, store) ∈ c.nodes := mem_of_alookup_eq_some hl
      have hnotin : ¬ e.1 ∈ store.map Prod.fst :=
        hfresh e (List.mem_cons_self _ _) _ hmem
      have hlen : (aupd store e.1 e.2).length = store.length + 1 :=
        length_aupd_of_not_mem _ hnotin
      have hsum := sum_lens_aupd c.nodes (aupd store e.1 e.2) hl
      have hfresh2 : ∀ f ∈ rest, ∀ p ∈
          (aupd c.nodes (getNodeStr c e.1) (aupd store e.1 e.2)), ¬ f.1 ∈ p.2.map Prod.fst := by
        intro f hf p hp hfk
        rcases mem_aupd hp with h1 | h1
        · exact hfresh f (List.mem_cons_of_mem _ hf) p h1 hfk
        · subst h1
          rcases keys_aupd_sub hfk with h2 | h2
          · exact hfresh f (List.mem_cons_of_mem _ hf) _ hmem h2
          · exact hnd.1 (h2 ▸ List.mem_map_of_mem Prod.fst hf)
      have h2 := ih _ _ h hnd.2 hfresh2
      have h3 : totalRecords c2 =
          ((aupd c.nodes (getNodeStr c e.1) (aupd store e.1 e.2)).map
            (fun p => p.2.length)).sum + rest.length := h2
      unfold totalRecords at h3 ⊢
      simp only [List.length_cons]
      omega

/-- Stores of nodes other than the target, after the move loop: the original
store with the moved keys deleted. -/
theorem applyMoves_src (name : String) :
    ∀ (ms : List (String × String)) (c : ConsistentHashing) (q : String), q ≠ name →
      (∀ m ∈ ms, m.1 ≠ name ∧ (alookup c.nodes m.1).isSome) →
      alookup (applyMoves c name ms).nodes q =
        (alookup c.nodes q).map
          (fun st => st.filter (fun kv => decide (¬ (q, kv.1) ∈ ms))) := by
  intro ms
  induction ms with
  | nil =>
    intro c q _ _
    simp only [applyMoves, List.foldl_nil]
    cases h : alookup c.nodes q with
    | none => rfl
    | some st =>
      simp only [Option.map_some']
      congr 1
      refine (List.filter_eq_self.mpr ?_).symm
      intro kv _
      simp
  | cons m ms ih =>
    intro c q hq hms
    obtain ⟨hm1, hm2⟩ := hms m (List.mem_cons_self _ _)
    have hms2 : ∀ f ∈ ms, f.1 ≠ name ∧ (alookup (stepMove name c m).nodes f.1).isSome := by
      intro f hf
      obtain ⟨hf1, hf2⟩ := hms f (List.mem_cons_of_mem _ hf)
      refine ⟨hf1, ?_⟩
      rw [stepMove_nodes hm1]
      by_cases hfm : f.1 = m.1
      · rw [hfm, alookup_aupd_self]; rfl
      · rw [alookup_aupd_ne _ _ hfm, alookup_aupd_ne _ _ hf1]
        exact hf2
    rw [applyMoves_cons, ih (stepMove name c m) q hq hms2, stepMove_nodes hm1]
    by_cases hqm : q = m.1
    · subst hqm
      rw [alookup_aupd_self]
      obtain ⟨st, hst⟩ := Option.isSome_iff_exists.mp hm2
      have hdata : dataOf c m.1 = st := by unfold dataOf; rw [hst]; rfl
      rw [hst, hdata]
      simp only [Option.map_some']
      congr 1
      unfold aerase
      rw [List.filter_filter]
      refine List.filter_congr ?_
      intro kv _
      by_cases h1 : kv.1 = m.2 <;> by_cases h2 : (m.1, kv.1) ∈ ms <;>
        simp [h1, h2, Prod.ext_iff]
    · rw [alookup_aupd_ne _ _ hqm, alookup_aupd_ne _ _ hq]
      cases hcq : alookup c.nodes q with
      | none => rfl
      | some st =>
        simp only [Option.map_some']
        congr 1
        refine List.filter_congr ?_
        intro kv _
        have hne : ¬ (q, kv.1) = m := by
          intro h
          exact hqm (congrArg Prod.fst h)
        simp [List.mem_cons, hne]

end CHSim

namespace CHSim

/-- Store of the target node after the move loop: its previous contents
followed by the moved records, each carrying the value read from its source
store. -/
theorem applyMoves_name (name : String) :
    ∀ (ms : List (String × String)) (c : ConsistentHashing),
      (∀ m ∈ ms, m.1 ≠ name ∧ ∃ st, alookup c.nodes m.1 = some st ∧
        m.2 ∈ st.map Prod.fst) →
      (ms.map Prod.snd).Nodup →
      (∀ m ∈ ms, ¬ m.2 ∈ (dataOf c name).map Prod.fst) →
      (alookup c.nodes name).isSome →
      alookup (applyMoves c name ms).nodes name =
        some (dataOf c name ++
          ms.map (fun m => (m.2, (alookup (dataOf c m.1) m.2).getD ""))) := by
  intro ms
  induction ms with
  | nil =>
    intro c _ _ _ hns
    obtain ⟨st, hst⟩ := Option.isSome_iff_exists.mp hns
    have hdata : dataOf c name = st := by unfold dataOf; rw [hst]; rfl
    simp only [applyMoves, List.foldl_nil, List.map_nil, List.append_nil, hst, hdata]
  | cons m ms ih =>
    intro c hsrc hnd hfresh hns
    obtain ⟨hm1, hmst⟩ := hsrc m (List.mem_cons_self _ _)
    obtain ⟨mst, hmst2, hmkey⟩ := hmst
    simp only [List.map_cons, List.nodup_cons] at hnd
    have hdm : dataOf c m.1 = mst := by unfold dataOf; rw [hmst2]; rfl
    have hfm := hfresh m (List.mem_cons_self _ _)
    -- the target store after this step
    have hname2 : alookup (stepMove name c m).nodes name =
        some (dataOf c name ++ [(m.2, (alookup (dataOf c m.1) m.2).getD "")]) := by
      rw [stepMove_nodes hm1, alookup_aupd_ne _ _ (fun h => hm1 h.symm), alookup_aupd_self]
      rw [aupd_eq_append _ hfm]
    have hdata2 : dataOf (stepMove name c m) name =
        dataOf c name ++ [(m.2, (alookup (dataOf c m.1) m.2).getD "")] := by
      unfold dataOf
      rw [hname2]
      rfl
    have hsrc2 : ∀ f ∈ ms, f.1 ≠ name ∧ ∃ st, alookup (stepMove name c m).nodes f.1 = some st ∧
        f.2 ∈ st.map Prod.fst := by
      intro f hf
      obtain ⟨hf1, fst, hfst, hfkey⟩ := hsrc f (List.mem_cons_of_mem _ hf)
      refine ⟨hf1, ?_⟩
      rw [stepMove_nodes hm1]
      by_cases hfm2 : f.1 = m.1
      · rw [hfm2, alookup_aupd_self]
        refine ⟨_, rfl, ?_⟩
        rw [hfm2] at hfst
        rw [hfst] at hmst2
        injection hmst2 with hmst2
        subst hmst2
        rw [keys_aerase, List.mem_filter]
        have hfne : f.2 ≠ m.2 := by
          intro h
          exact hnd.1 (h ▸ List.mem_map_of_mem Prod.snd hf)
        rw [hdm]
        exact ⟨hfkey, by simpa using hfne⟩
      · rw [alookup_aupd_ne _ _ hfm2, alookup_aupd_ne _ _ hf1]
        exact ⟨fst, hfst, hfkey⟩
    have hfresh2 : ∀ f ∈ ms, ¬ f.2 ∈ (dataOf (stepMove name c m) name).map Prod.fst := by
      intro f hf hmem
      rw [hdata2, List.map_append, List.mem_append] at hmem
      rcases hmem with h1 | h1
      · exact hfresh f (List.mem_cons_of_mem _ hf) h1
      · have hfne : f.2 ≠ m.2 := by
          intro h
          exact hnd.1 (h ▸ List.mem_map_of_mem Prod.snd hf)
        simp only [List.map_cons, List.map_nil, List.mem_cons] at h1
        rcases h1 with h1 | h1
        · exact hfne h1
        · simp at h1
    have hns2 : (alookup (stepMove name c m).nodes name).isSome := by
      rw [hname2]; rfl
    rw [applyMoves_cons, ih (stepMove name c m) hsrc2 hnd.2 hfresh2 hns2, hdata2]
    congr 1
    rw [List.append_assoc]
    congr 1
    simp only [List.singleton_append, List.map_cons]
    congr 1
    refine List.map_congr_left ?_
    intro f hf
    obtain ⟨hf1, fst, hfst, hfkey⟩ := hsrc f (List.mem_cons_of_mem _ hf)
    congr 1
    by_cases hfm2 : f.1 = m.1
    · rw [hfm2]
      have hth : dataOf (stepMove name c m) m.1 = aerase (dataOf c m.1) m.2 := by
        unfold dataOf
        rw [stepMove_nodes hm1, alookup_aupd_self]
        rfl
      rw [hth]
      have hfne : f.2 ≠ m.2 := by
        intro h
        exact hnd.1 (h ▸ List.mem_map_of_mem Prod.snd hf)
      rw [alookup_aerase_ne _ hfne]
    · have : dataOf (stepMove name c m) f.1 = dataOf c f.1 := by
        unfold dataOf
        rw [stepMove_nodes hm1, alookup_aupd_ne _ _ hfm2, alookup_aupd_ne _ _ hf1]
      rw [this]

/-- The move loop conserves the total record count. -/
theorem applyMoves_total (name : String) :
    ∀ (ms : List (String × String)) (c : ConsistentHashing),
      (∀ m ∈ ms, m.1 ≠ name ∧ ∃ st, alookup c.nodes m.1 = some st ∧
        m.2 ∈ st.map Prod.fst) →
      (ms.map Prod.snd).Nodup →
      (∀ m ∈ ms, ¬ m.2 ∈ (dataOf c name).map Prod.fst) →
      (alookup c.nodes name).isSome →
      (∀ p ∈ c.nodes, (p.2.map Prod.fst).Nodup) →
      totalRecords (applyMoves c name ms) = totalRecords c := by
  intro ms
  induction ms with
  | nil => intro c _ _ _ _ _; rfl
  | cons m ms ih =>
    intro c hsrc hnd hfresh hns hstn
    obtain ⟨hm1, hmst⟩ := hsrc m (List.mem_cons_self _ _)
    obtain ⟨mst, hmst2, hmkey⟩ := hmst
    simp only [List.map_cons, List.nodup_cons] at hnd
    obtain ⟨st0, hst0⟩ := Option.isSome_iff_exists.mp hns
    have hdata : dataOf c name = st0 := by unfold dataOf; rw [hst0]; rfl
    have hdm : dataOf c m.1 = mst := by unfold dataOf; rw [hmst2]; rfl
    have hfm := hfresh m (List.mem_cons_self _ _)
    -- arithmetic of the two store updates
    have hlen1 : (aupd (dataOf c name) m.2 ((alookup (dataOf c m.1) m.2).getD "")).length =
        (dataOf c name).length + 1 :=
      length_aupd_of_not_mem _ hfm
    have hsum1 := sum_lens_aupd c.nodes
      (aupd (dataOf c name) m.2 ((alookup (dataOf c m.1) m.2).getD "")) (hdata ▸ hst0)
    have hmstn : (mst.map Prod.fst).Nodup := hstn _ (mem_of_alookup_eq_some hmst2)
    have hlen2 : (aerase (dataOf c m.1) m.2).length + 1 = (dataOf c m.1).length := by
      rw [hdm]
      exact length_aerase_of_mem hmstn (hdm ▸ hmkey)
    have hsum2 := sum_lens_aupd
      (aupd c.nodes name (aupd (dataOf c name) m.2 ((alookup (dataOf c m.1) m.2).getD "")))
      (aerase (dataOf c m.1) m.2)
      (show alookup _ m.1 = some (dataOf c m.1) by
        rw [alookup_aupd_ne _ _ hm1, hdm]
        exact hmst2)
    have htot : totalRecords (stepMove name c m) = totalRecords c := by
      have hnodes := stepMove_nodes (c := c) hm1
      unfold totalRecords
      rw [hnodes]
      omega
    -- hypotheses for the tail
    have hsrc2 : ∀ f ∈ ms, f.1 ≠ name ∧ ∃ st, alookup (stepMove name c m).nodes f.1 = some st ∧
        f.2 ∈ st.map Prod.fst := by
      intro f hf
      obtain ⟨hf1, fst, hfst, hfkey⟩ := hsrc f (List.mem_cons_of_mem _ hf)
      refine ⟨hf1, ?_⟩
      rw [stepMove_nodes hm1]
      by_cases hfm2 : f.1 = m.1
      · rw [hfm2, alookup_aupd_self]
        refine ⟨_, rfl, ?_⟩
        rw [hfm2] at hfst
        rw [hfst] at hmst2
        injection hmst2 with hmst2
        subst hmst2
        rw [keys_aerase, List.mem_filter]
        have hfne : f.2 ≠ m.2 := by
          intro h
          exact hnd.1 (h ▸ List.mem_map_of_mem Prod.snd hf)
        rw [hdm]
        exact ⟨hfkey, by simpa using hfne⟩
      · rw [alookup_aupd_ne _ _ hfm2, alookup_aupd_ne _ _ hf1]
        exact ⟨fst, hfst, hfkey⟩
    have hname2 : alookup (stepMove name c m).nodes name =
        some (dataOf c name ++ [(m.2, (alookup (dataOf c m.1) m.2).getD "")]) := by
      rw [stepMove_nodes hm1, alookup_aupd_ne _ _ (fun h => hm1 h.symm), alookup_aupd_self]
      rw [aupd_eq_append _ hfm]
    have hdata2 : dataOf (stepMove name c m) name =
        dataOf c name ++ [(m.2, (alookup (dataOf c m.1) m.2).getD "")] := by
      unfold dataOf
      rw [hname2]
      rfl
    have hfresh2 : ∀ f ∈ ms, ¬ f.2 ∈ (dataOf (stepMove name c m) name).map Prod.fst := by
      intro f hf hmem
      rw [hdata2, List.map_append, List.mem_append] at hmem
      rcases hmem with h1 | h1
      · exact hfresh f (List.mem_cons_of_mem _ hf) h1
      · have hfne : f.2 ≠ m.2 := by
          intro h
          exact hnd.1 (h ▸ List.mem_map_of_mem Prod.snd hf)
        simp only [List.map_cons, List.map_nil, List.mem_cons] at h1
        rcases h1 with h1 | h1
        · exact hfne h1
        · simp at h1
    have hns2 : (alookup (stepMove name c m).nodes name).isSome := by
      rw [hname2]; rfl
    have hstn2 : ∀ p ∈ (stepMove name c m).nodes, (p.2.map Prod.fst).Nodup := by
      intro p hp
      rw [stepMove_nodes hm1] at hp
      rcases mem_aupd hp with hp1 | hp1
      · rcases mem_aupd hp1 with hp2 | hp2
        · exact hstn p hp2
        · subst hp2
          exact nodup_keys_aupd (hdata ▸ hstn _ (mem_of_alookup_eq_some hst0))
      · subst hp1
        exact nodup_keys_aerase (hdm ▸ hmstn)
    rw [applyMoves_cons, ih (stepMove name c m) hsrc2 hnd.2 hfresh2 hns2 hstn2, htot]

end CHSim

namespace CHSim

theorem mem_collectMoves {ch : ConsistentHashing} {name s k : String} :
    (s, k) ∈ collectMoves ch name ↔
      s ≠ name ∧ getNodeStr ch k = name ∧
        ∃ st, (s, st) ∈ ch.nodes ∧ k ∈ st.map Prod.fst := by
  unfold collectMoves
  rw [List.mem_flatMap]
  constructor
  · rintro ⟨p, hp, hmem⟩
    by_cases hpn : p.1 = name
    · rw [if_pos hpn] at hmem
      simp at hmem
    · rw [if_neg hpn] at hmem
      rw [List.mem_map] at hmem
      obtain ⟨kv, hkv, heq⟩ := hmem
      rw [List.mem_filter] at hkv
      injection heq with heq1 heq2
      subst heq1
      subst heq2
      refine ⟨hpn, by simpa using hkv.2, p.2, ?_, List.mem_map_of_mem Prod.fst hkv.1⟩
      rw [show (p.1, p.2) = p from rfl]
      exact hp
  · rintro ⟨hs, hres, st, hst, hk⟩
    refine ⟨(s, st), hst, ?_⟩
    rw [if_neg hs]
    rw [List.mem_map]
    obtain ⟨kv, hkv, hkv1⟩ := List.mem_map.mp hk
    exact ⟨kv, List.mem_filter.mpr ⟨hkv, by simp [hkv1, hres]⟩, by rw [hkv1]⟩

theorem nodup_flatMap {γ δ : Type} (l : List γ) (f : γ → List δ)
    (h1 : ∀ x ∈ l, (f x).Nodup)
    (h2 : l.Pairwise (fun a b => ∀ y ∈ f a, ¬ y ∈ f b)) :
    (l.flatMap f).Nodup := by
  induction l with
  | nil => simp
  | cons x t ih =>
    rw [List.flatMap_cons]
    rw [List.pairwise_cons] at h2
    apply (h1 x (List.mem_cons_self _ _)).append
      (ih (fun y hy => h1 y (List.mem_cons_of_mem _ hy)) h2.2)
    intro y hy1 hy2
    rw [List.mem_flatMap] at hy2
    obtain ⟨b, hb, hyb⟩ := hy2
    exact h2.1 b hb y hy1 hyb

/-- Keys collected for migration are pairwise distinct when per-store keys
are unique and stores are pairwise disjoint. -/
theorem collectMoves_snd_nodup {ch : ConsistentHashing} {name : String}
    (hstn : ∀ p ∈ ch.nodes, (p.2.map Prod.fst).Nodup) (hdisj : Disj ch) :
    ((collectMoves ch name).map Prod.snd).Nodup := by
  unfold collectMoves
  rw [List.map_flatMap]
  have hsub : ∀ p : String × List (String × String), ∀ y,
      y ∈ (List.map Prod.snd
        (if p.1 = name then []
         else (p.2.filter (fun kv => decide (getNodeStr ch kv.1 = name))).map
           (fun kv => (p.1, kv.1)))) → y ∈ p.2.map Prod.fst := by
    intro p y hy
    by_cases hpn : p.1 = name
    · rw [if_pos hpn] at hy
      simp at hy
    · rw [if_neg hpn] at hy
      rw [List.map_map, List.mem_map] at hy
      obtain ⟨kv, hkv, hkveq⟩ := hy
      rw [List.mem_filter] at hkv
      rw [← hkveq]
      exact List.mem_map_of_mem Prod.fst hkv.1
  apply nodup_flatMap
  · intro p hp
    by_cases hpn : p.1 = name
    · rw [if_pos hpn]
      simp
    · rw [if_neg hpn]
      rw [List.map_map]
      exact (hstn p hp).sublist ((List.filter_sublist _).map Prod.fst)
  · unfold Disj at hdisj
    refine hdisj.imp ?_
    intro a b hab y hy1 hy2
    exact hab y (hsub a y hy1) (hsub b y hy2)

/-- Facts about each pending move: its source is another registered node,
the key is stored there, and the key resolves to the new node. -/
theorem collectMoves_props {ch : ConsistentHashing} {name : String}
    (hn : (ch.nodes.map Prod.fst).Nodup) :
    ∀ m ∈ collectMoves ch name, m.1 ≠ name ∧ getNodeStr ch m.2 = name ∧
      ∃ st, alookup ch.nodes m.1 = some st ∧ m.2 ∈ st.map Prod.fst := by
  intro m hm
  obtain ⟨s, k⟩ := m
  rw [mem_collectMoves] at hm
  obtain ⟨h1, h2, st, h3, h4⟩ := hm
  exact ⟨h1, h2, st, alookup_eq_some_of_mem hn h3, h4⟩

/-- Completeness of the scan: any key of another node resolving to the new
node is collected. -/
theorem collectMoves_complete {ch : ConsistentHashing} {name s k : String}
    {st : List (String × String)} (hs : s ≠ name) (hst : (s, st) ∈ ch.nodes)
    (hk : k ∈ st.map Prod.fst) (hres : getNodeStr ch k = name) :
    (s, k) ∈ collectMoves ch name :=
  mem_collectMoves.mpr ⟨hs, hres, st, hst, hk⟩

end CHSim

namespace CHSim

/-! ## Glue lemmas for the membership operations -/

theorem disj_pairs {ch : ConsistentHashing} (h : Disj ch) {n1 n2 : String}
    {st1 st2 : List (String × String)} (h1 : (n1, st1) ∈ ch.nodes)
    (h2 : (n2, st2) ∈ ch.nodes) (hne : n1 ≠ n2) :
    ∀ k ∈ st1.map Prod.fst, ¬ k ∈ st2.map Prod.fst := by
  unfold Disj at h
  have hsymm : Symmetric (fun (a b : String × List (String × String)) =>
      ∀ k ∈ a.2.map Prod.fst, ¬ k ∈ b.2.map Prod.fst) := by
    intro a b hab k hk hk2
    exact hab k hk2 hk
  exact h.forall hsymm h1 h2 (fun he => hne (congrArg Prod.fst he))

theorem placementInv_disj {ch : ConsistentHashing} (hnn : (ch.nodes.map Prod.fst).Nodup)
    (h : PlacementInv ch) : Disj ch := by
  unfold Disj
  have hpw : ch.nodes.Pairwise (fun a b => a.1 ≠ b.1) := by
    rw [← List.pairwise_map (f := Prod.fst)]
    exact hnn
  refine hpw.imp_of_mem ?_
  intro a b ha hb hne k hk1 hk2
  obtain ⟨e1, he1, hk1e⟩ := List.mem_map.mp hk1
  obtain ⟨e2, he2, hk2e⟩ := List.mem_map.mp hk2
  have g1 := h a ha e1 he1
  have g2 := h b hb e2 he2
  rw [hk1e] at g1
  rw [hk2e] at g2
  rw [g1] at g2
  injection g2 with g2
  exact hne g2

theorem sum_lens_aerase (l : List (String × List (String × String))) {n : String}
    {st : List (String × String)} (hn : (l.map Prod.fst).Nodup)
    (h : alookup l n = some st) :
    ((aerase l n).map (fun p => p.2.length)).sum + st.length =
      (l.map (fun p => p.2.length)).sum := by
  induction l with
  | nil => simp [alookup] at h
  | cons f t ih =>
    obtain ⟨k, v⟩ := f
    simp only [List.map_cons, List.nodup_cons] at hn
    rw [alookup_cons] at h
    by_cases hk : n = k
    · rw [if_pos hk] at h
      injection h with h
      subst h
      rw [← hk, aerase_cons_self, aerase_of_not_mem (by
        intro hmem
        exact hn.1 (hk ▸ hmem))]
      simp only [List.map_cons, List.sum_cons]
      omega
    · rw [if_neg hk] at h
      rw [aerase_cons_ne (fun he => hk he.symm)]
      have := ih hn.2 h
      simp only [List.map_cons, List.sum_cons]
      omega

theorem applyMoves_names (name : String) :
    ∀ (ms : List (String × String)) (c : ConsistentHashing),
      name ∈ c.nodes.map Prod.fst →
      (∀ m ∈ ms, m.1 ≠ name ∧ m.1 ∈ c.nodes.map Prod.fst) →
      (applyMoves c name ms).nodes.map Prod.fst = c.nodes.map Prod.fst := by
  intro ms
  induction ms with
  | nil => intro c _ _; rfl
  | cons m t ih =>
    intro c hname hms
    obtain ⟨hm1, hm2⟩ := hms m (List.mem_cons_self _ _)
    have hkeys : (stepMove name c m).nodes.map Prod.fst = c.nodes.map Prod.fst := by
      rw [stepMove_nodes hm1]
      rw [keys_aupd_of_mem _ (by rw [keys_aupd_of_mem _ hname]; exact hm2)]
      exact keys_aupd_of_mem _ hname
    rw [applyMoves_cons, ih (stepMove name c m) (hkeys ▸ hname)
      (fun f hf => ⟨(hms f (List.mem_cons_of_mem _ hf)).1,
        hkeys ▸ (hms f (List.mem_cons_of_mem _ hf)).2⟩), hkeys]

theorem addMid_nodes_nodup {ch : ConsistentHashing} {nodeName : String}
    (h : (ch.nodes.map Prod.fst).Nodup) :
    ((addMid ch nodeName).nodes.map Prod.fst).Nodup := by
  rw [addMid_nodes]
  exact nodup_keys_aupd h

theorem addMid_stores_nodup {ch : ConsistentHashing} {nodeName : String}
    (h : ∀ p ∈ ch.nodes, (p.2.map Prod.fst).Nodup) :
    ∀ p ∈ (addMid ch nodeName).nodes, (p.2.map Prod.fst).Nodup := by
  rw [addMid_nodes]
  intro p hp
  rcases mem_aupd hp with h1 | h1
  · exact h p h1
  · subst h1
    simp

theorem addMid_disj {ch : ConsistentHashing} {nodeName : String}
    (hfree : alookup ch.nodes nodeName = none) (h : Disj ch) :
    Disj (addMid ch nodeName) := by
  unfold Disj
  rw [addMid_nodes, aupd_eq_append _ (alookup_eq_none_iff.mp hfree)]
  rw [List.pairwise_append]
  refine ⟨h, by simp, ?_⟩
  intro a _ b hb
  rw [List.mem_singleton] at hb
  subst hb
  intro k _ hk
  simp at hk

theorem addMid_alookup_name {ch : ConsistentHashing} {nodeName : String} :
    alookup (addMid ch nodeName).nodes nodeName = some [] := by
  rw [addMid_nodes]
  exact alookup_aupd_self _ _ _

theorem addMid_alookup_ne {ch : ConsistentHashing} {nodeName q : String}
    (h : q ≠ nodeName) :
    alookup (addMid ch nodeName).nodes q = alookup ch.nodes q := by
  rw [addMid_nodes]
  exact alookup_aupd_ne _ _ h

theorem addMid_total {ch : ConsistentHashing} {nodeName : String}
    (hfree : alookup ch.nodes nodeName = none) :
    totalRecords (addMid ch nodeName) = totalRecords ch := by
  unfold totalRecords
  rw [addMid_nodes, aupd_eq_append _ (alookup_eq_none_iff.mp hfree)]
  simp

theorem removeMid_fields (ch : ConsistentHashing) (nodeName : String) :
    (removeMid ch nodeName).ring =
      ch.ring.filter (fun h => decide (¬ h ∈ vnodeHashes nodeName ch.vnodes)) ∧
    (removeMid ch nodeName).hashMap =
      ch.hashMap.filter (fun e => decide (¬ e.1 ∈ vnodeHashes nodeName ch.vnodes)) ∧
    (removeMid ch nodeName).nodes = aerase ch.nodes nodeName ∧
    (removeMid ch nodeName).vnodes = ch.vnodes := by
  unfold removeMid vnodeHashes
  exact ⟨rfl, rfl, rfl, rfl⟩

theorem redistribute_targets :
    ∀ (data : List (String × String)) (c c2 : ConsistentHashing),
      redistribute c data = RemoveResult.ok c2 →
      ∀ e ∈ data, (alookup c2.nodes (getNodeStr c e.1)).isSome := by
  intro data
  induction data with
  | nil =>
    intro c c2 _ e he
    simp at he
  | cons d rest ih =>
    intro c c2 h e he
    simp only [redistribute] at h
    cases hl : alookup c.nodes (getNodeStr c d.1) with
    | none => rw [hl] at h; exact absurd h (by simp)
    | some store =>
      rw [hl] at h
      have hgs : ∀ key, getNodeStr
          { c with nodes := aupd c.nodes (getNodeStr c d.1) (aupd store d.1 d.2) } key =
          getNodeStr c key := fun key => redistribute_getNodeStr rfl rfl key
      have hkeys : c2.nodes.map Prod.fst =
          (aupd c.nodes (getNodeStr c d.1) (aupd store d.1 d.2)).map Prod.fst :=
        (redistribute_fields _ _ _ h).2.2.2
      rcases List.mem_cons.mp he with h1 | h1
      · subst h1
        rw [alookup_isSome_iff_mem_keys, hkeys,
          keys_aupd_of_mem _ (alookup_isSome_iff_mem_keys.mp (by rw [hl]; rfl))]
        exact alookup_isSome_iff_mem_keys.mp (by rw [hl]; rfl)
      · have := ih _ _ h e h1
        rw [hgs e.1] at this
        exact this

/-- Hypothesis of the amended invariant-restoration claim for `RemoveNode`:
every `hashMap` entry sitting at one of the removed node's VNode hash
positions is owned by the removed node itself (no cross-node hash
collision involves its positions). -/
def OwnedOnlyBy (ch : ConsistentHashing) (nodeName : String) : Prop :=
  ∀ p ∈ vnodeHashes nodeName ch.vnodes, ∀ e ∈ ch.hashMap, e.1 = p → e.2 = nodeName

instance (ch : ConsistentHashing) (nodeName : String) :
    Decidable (OwnedOnlyBy ch nodeName) := by
  unfold OwnedOnlyBy
  infer_instance

theorem ownedOnlyBy_alookup {ch : ConsistentHashing} {nodeName : String}
    (h : OwnedOnlyBy ch nodeName) {p : Nat} {q : String}
    (hp : p ∈ vnodeHashes nodeName ch.vnodes)
    (hq : alookup ch.hashMap p = some q) : q = nodeName :=
  h p hp (p, q) (mem_of_alookup_eq_some hq) rfl

end CHSim

namespace CHSim

theorem AddNode_fst_exists {ch : ConsistentHashing} {nodeName : String}
    (h : (alookup ch.nodes nodeName).isSome) : (AddNode ch nodeName).1 = ch := by
  rw [AddNode_eq_exists h]

theorem AddNode_fst_go {ch : ConsistentHashing} {nodeName : String}
    (hfree : alookup ch.nodes nodeName = none) :
    (AddNode ch nodeName).1 =
      applyMoves (addMid ch nodeName) nodeName (collectMoves (addMid ch nodeName) nodeName) := by
  rw [AddNode_eq_go (by simp [hfree])]

theorem AddNode_final_ring {ch : ConsistentHashing} {nodeName : String}
    (hfree : alookup ch.nodes nodeName = none) :
    (AddNode ch nodeName).1.ring = (addMid ch nodeName).ring := by
  rw [AddNode_fst_go hfree]
  exact (applyMoves_fields _ _ _).1

theorem AddNode_final_hashMap {ch : ConsistentHashing} {nodeName : String}
    (hfree : alookup ch.nodes nodeName = none) :
    (AddNode ch nodeName).1.hashMap = (addMid ch nodeName).hashMap := by
  rw [AddNode_fst_go hfree]
  exact (applyMoves_fields _ _ _).2.1

theorem AddNode_final_GetNode {ch : ConsistentHashing} {nodeName : String}
    (hfree : alookup ch.nodes nodeName = none) (key : String) :
    GetNode (AddNode ch nodeName).1 key = GetNode (addMid ch nodeName) key :=
  GetNode_ext (AddNode_final_ring hfree) (AddNode_final_hashMap hfree) key

theorem collectMoves_mid_sources {ch : ConsistentHashing} {nodeName : String}
    (hnn : (ch.nodes.map Prod.fst).Nodup) :
    ∀ m ∈ collectMoves (addMid ch nodeName) nodeName,
      m.1 ≠ nodeName ∧ ∃ st, alookup (addMid ch nodeName).nodes m.1 = some st ∧
        m.2 ∈ st.map Prod.fst := by
  intro m hm
  obtain ⟨h1, _, st, h3, h4⟩ := collectMoves_props (addMid_nodes_nodup hnn) m hm
  exact ⟨h1, st, h3, h4⟩

theorem collectMoves_mid_fresh {ch : ConsistentHashing} {nodeName : String} :
    ∀ m ∈ collectMoves (addMid ch nodeName) nodeName,
      ¬ m.2 ∈ (dataOf (addMid ch nodeName) nodeName).map Prod.fst := by
  intro m _
  have hdata : dataOf (addMid ch nodeName) nodeName = [] := by
    unfold dataOf
    rw [addMid_alookup_name]
    rfl
  rw [hdata]
  simp

theorem AddNode_final_src {ch : ConsistentHashing} {nodeName : String}
    (hfree : alookup ch.nodes nodeName = none)
    (hnn : (ch.nodes.map Prod.fst).Nodup)
    {q : String} (hq : q ≠ nodeName) :
    alookup (AddNode ch nodeName).1.nodes q =
      (alookup ch.nodes q).map (fun st => st.filter (fun kv =>
        decide (¬ (q, kv.1) ∈ collectMoves (addMid ch nodeName) nodeName))) := by
  rw [AddNode_fst_go hfree]
  have hs : ∀ m ∈ collectMoves (addMid ch nodeName) nodeName,
      m.1 ≠ nodeName ∧ (alookup (addMid ch nodeName).nodes m.1).isSome := by
    intro m hm
    obtain ⟨h1, st, h3, _⟩ := collectMoves_mid_sources hnn m hm
    exact ⟨h1, by rw [h3]; rfl⟩
  rw [applyMoves_src nodeName _ _ q hq hs, addMid_alookup_ne hq]

theorem AddNode_final_name {ch : ConsistentHashing} {nodeName : String}
    (hfree : alookup ch.nodes nodeName = none)
    (hnn : (ch.nodes.map Prod.fst).Nodup)
    (hstn : ∀ p ∈ ch.nodes, (p.2.map Prod.fst).Nodup) (hdisj : Disj ch) :
    alookup (AddNode ch nodeName).1.nodes nodeName =
      some ((collectMoves (addMid ch nodeName) nodeName).map
        (fun m => (m.2, (alookup (dataOf (addMid ch nodeName) m.1) m.2).getD ""))) := by
  rw [AddNode_fst_go hfree]
  have hdata : dataOf (addMid ch nodeName) nodeName = [] := by
    unfold dataOf
    rw [addMid_alookup_name]
    rfl
  rw [applyMoves_name nodeName _ _ (collectMoves_mid_sources hnn)
    (collectMoves_snd_nodup (addMid_stores_nodup hstn) (addMid_disj hfree hdisj))
    collectMoves_mid_fresh (by rw [addMid_alookup_name]; rfl), hdata]
  rw [List.nil_append]

theorem AddNode_total {ch : ConsistentHashing} {nodeName : String}
    (hfree : alookup ch.nodes nodeName = none)
    (hnn : (ch.nodes.map Prod.fst).Nodup)
    (hstn : ∀ p ∈ ch.nodes, (p.2.map Prod.fst).Nodup) (hdisj : Disj ch) :
    totalRecords (AddNode ch nodeName).1 = totalRecords ch := by
  rw [AddNode_fst_go hfree]
  rw [applyMoves_total nodeName _ _ (collectMoves_mid_sources hnn)
    (collectMoves_snd_nodup (addMid_stores_nodup hstn) (addMid_disj hfree hdisj))
    collectMoves_mid_fresh (by rw [addMid_alookup_name]; rfl)
    (addMid_stores_nodup hstn)]
  exact addMid_total hfree

theorem AddNode_final_names {ch : ConsistentHashing} {nodeName : String}
    (hfree : alookup ch.nodes nodeName = none)
    (hnn : (ch.nodes.map Prod.fst).Nodup) :
    (AddNode ch nodeName).1.nodes.map Prod.fst = (addMid ch nodeName).nodes.map Prod.fst := by
  rw [AddNode_fst_go hfree]
  apply applyMoves_names
  · rw [addMid_nodes]
    rw [aupd_eq_append _ (alookup_eq_none_iff.mp hfree)]
    simp
  · intro m hm
    obtain ⟨h1, st, h3, _⟩ := collectMoves_mid_sources hnn m hm
    exact ⟨h1, alookup_isSome_iff_mem_keys.mp (by rw [h3]; rfl)⟩

end CHSim

namespace CHSim

theorem emptyRing_stores_empty {ch : ConsistentHashing} (hinv : PlacementInv ch)
    (hrg : ch.ring = []) : ∀ p ∈ ch.nodes, p.2 = [] := by
  intro p hp
  rw [List.eq_nil_iff_forall_not_mem]
  intro e he
  have hok := hinv p hp e he
  have herr := (GetNode_error_iff ch e.1).mpr hrg
  rw [hok] at herr
  exact absurd herr (by simp)

/-- AddNode restores the placement invariant unconditionally: even when the
new node's VNode hashes collide with existing positions, the full scan
evaluates every key against the final ring, so every record ends up on the
node the final ring resolves. -/
theorem addNode_placementInv {ch : ConsistentHashing} (nodeName : String)
    (hwf : WF ch) (hinv : PlacementInv ch) :
    PlacementInv (AddNode ch nodeName).1 := by
  by_cases hex : (alookup ch.nodes nodeName).isSome
  · rw [AddNode_fst_exists hex]
    exact hinv
  · have hfree : alookup ch.nodes nodeName = none := by
      cases h : alookup ch.nodes nodeName with
      | none => rfl
      | some v => rw [h] at hex; exact absurd rfl hex
    have hdisj := placementInv_disj hwf.nodesNodup hinv
    have hfnodup : ((AddNode ch nodeName).1.nodes.map Prod.fst).Nodup := by
      rw [AddNode_final_names hfree hwf.nodesNodup]
      exact addMid_nodes_nodup hwf.nodesNodup
    intro p hp e he
    have halk : alookup (AddNode ch nodeName).1.nodes p.1 = some p.2 := by
      apply alookup_eq_some_of_mem hfnodup
      rw [show (p.1, p.2) = p from rfl]
      exact hp
    rw [AddNode_final_GetNode hfree]
    by_cases hpn : p.1 = nodeName
    · -- record migrated onto the new node
      rw [hpn, AddNode_final_name hfree hwf.nodesNodup hwf.storesNodup hdisj] at halk
      injection halk with halk
      have hmem : e ∈ (collectMoves (addMid ch nodeName) nodeName).map
          (fun m => (m.2, (alookup (dataOf (addMid ch nodeName) m.1) m.2).getD "")) := by
        rw [halk]
        exact he
      obtain ⟨m, hm, hme⟩ := List.mem_map.mp hmem
      obtain ⟨s, k⟩ := m
      rw [mem_collectMoves] at hm
      obtain ⟨hs, hres, st, hsst, hkst⟩ := hm
      have hrne : (addMid ch nodeName).ring ≠ [] := by
        intro hmid
        have hchr : ch.ring = [] := by
          rw [List.eq_nil_iff_forall_not_mem]
          intro x hx
          have hx2 : x ∈ (addMid ch nodeName).ring :=
            (addMid_ring_mem ch nodeName x).mpr (Or.inl hx)
          rw [hmid] at hx2
          simp at hx2
        rcases (by rw [addMid_nodes] at hsst; exact mem_aupd hsst :
            (s, st) ∈ ch.nodes ∨ (s, st) = (nodeName, [])) with h1 | h1
        · have := emptyRing_stores_empty hinv hchr (s, st) h1
          simp only at this
          rw [this] at hkst
          simp at hkst
        · injection h1 with h1a _
          exact hs h1a
      have he1 : e.1 = k := by
        rw [← hme]
      rw [he1, GetNode_ok_of_ring_ne k hrne, hres, hpn]
    · -- record left on its previous node
      rw [AddNode_final_src hfree hwf.nodesNodup hpn] at halk
      cases hcq : alookup ch.nodes p.1 with
      | none => rw [hcq] at halk; exact absurd halk (by simp)
      | some st =>
        rw [hcq] at halk
        simp only [Option.map_some'] at halk
        injection halk with halk
        have hest : e ∈ st.filter (fun kv =>
            decide (¬ (p.1, kv.1) ∈ collectMoves (addMid ch nodeName) nodeName)) := by
          rw [halk]
          exact he
        rw [List.mem_filter] at hest
        obtain ⟨hest, hunmoved⟩ := hest
        have hinv0 := hinv (p.1, st) (mem_of_alookup_eq_some hcq) e hest
        by_cases hrg : ch.ring = []
        · have := emptyRing_stores_empty hinv hrg (p.1, st) (mem_of_alookup_eq_some hcq)
          simp only at this
          rw [this] at hest
          simp at hest
        · rw [GetNode_eq_resolveSpec ch e.1 hwf.ringSorted] at hinv0
          unfold resolveSpec at hinv0
          cases hpos : posOf ch.ring (hashKey e.1) with
          | none => rw [hpos] at hinv0; exact absurd hinv0 (by simp)
          | some p0 =>
            rw [hpos] at hinv0
            injection hinv0 with hown0
            have hmidsort := addMid_ring_sorted ch nodeName
            rw [GetNode_eq_resolveSpec _ _ hmidsort]
            unfold resolveSpec
            cases hpos1 : posOf (addMid ch nodeName).ring (hashKey e.1) with
            | none =>
              exfalso
              have hnil := posOf_eq_none_iff.mp hpos1
              have : p0 ∈ (addMid ch nodeName).ring :=
                (addMid_ring_mem _ _ _).mpr (Or.inl (posOf_mem hpos))
              rw [hnil] at this
              simp at this
            | some p1 =>
              by_cases hp1H : p1 ∈ vnodeHashes nodeName ch.vnodes
              · exfalso
                have hgets : getNodeStr (addMid ch nodeName) e.1 = nodeName := by
                  apply getNodeStr_eq_of_ok
                  rw [GetNode_eq_resolveSpec _ _ hmidsort]
                  unfold resolveSpec
                  rw [hpos1]
                  show Except.ok ((alookup (addMid ch nodeName).hashMap p1).getD "") =
                    Except.ok nodeName
                  rw [addMid_hashMap, if_pos hp1H]
                  rfl
                have hst2 : (p.1, st) ∈ (addMid ch nodeName).nodes := by
                  apply mem_of_alookup_eq_some
                  rw [addMid_alookup_ne hpn]
                  exact hcq
                have hmoved := collectMoves_complete hpn hst2
                  (List.mem_map_of_mem Prod.fst hest) hgets
                have hnm : ¬ (p.1, e.1) ∈ collectMoves (addMid ch nodeName) nodeName := by
                  simpa using hunmoved
                exact hnm hmoved
              · have hpos0 : posOf ch.ring (hashKey e.1) = some p1 :=
                  posOf_superset (fun x => addMid_ring_mem ch nodeName x) hpos1 hp1H
                rw [hpos] at hpos0
                injection hpos0 with hpp
                show Except.ok ((alookup (addMid ch nodeName).hashMap p1).getD "") =
                  Except.ok p.1
                rw [addMid_hashMap, if_neg hp1H, ← hpp]
                rw [hown0]

theorem alookup_filter_not_mem {β : Type} (l : List (Nat × β)) (R : List Nat) (a : Nat) :
    alookup (l.filter (fun e => decide (¬ e.1 ∈ R))) a =
      if a ∈ R then none else alookup l a := by
  induction l with
  | nil => by_cases h : a ∈ R <;> simp [alookup, h]
  | cons f t ih =>
    obtain ⟨k, v⟩ := f
    rw [List.filter_cons]
    by_cases hk : k ∈ R
    · rw [if_neg (by simp [hk]), ih]
      by_cases ha : a ∈ R
      · rw [if_pos ha, if_pos ha]
      · rw [if_neg ha, if_neg ha, alookup_cons,
          if_neg (show ¬ a = k from fun hak => ha (by rw [hak]; exact hk))]
    · rw [if_pos (by simp [hk])]
      by_cases hak : a = k
      · subst hak
        rw [alookup_cons, if_pos rfl, if_neg hk, alookup_cons, if_pos rfl]
      · rw [alookup_cons, if_neg hak, ih]
        by_cases ha : a ∈ R
        · rw [if_pos ha, if_pos ha]
        · rw [if_neg ha, if_neg ha, alookup_cons, if_neg hak]

/-- RemoveNode restores the placement invariant provided the removed node's
hash positions are owned only by itself in the position-to-owner mapping. -/
theorem removeNode_placementInv {ch ch2 : ConsistentHashing} {nodeName : String}
    (hwf : WF ch) (hinv : PlacementInv ch) (hown : OwnedOnlyBy ch nodeName)
    (hok : RemoveNode ch nodeName = RemoveResult.ok ch2) :
    PlacementInv ch2 := by
  cases hlk : alookup ch.nodes nodeName with
  | none =>
    rw [RemoveNode_eq_notFound hlk] at hok
    exact absurd hok (by simp)
  | some data =>
    rw [RemoveNode_eq_go hlk] at hok
    obtain ⟨hmr, hmh, hmn, _⟩ := removeMid_fields ch nodeName
    have hmidsort : List.Sorted (· ≤ ·) (removeMid ch nodeName).ring := by
      rw [hmr]
      exact hwf.ringSorted.filter _
    have hch2ring : ch2.ring = (removeMid ch nodeName).ring :=
      (redistribute_fields _ _ _ hok).1
    have hch2hash : ch2.hashMap = (removeMid ch nodeName).hashMap :=
      (redistribute_fields _ _ _ hok).2.1
    have hch2names : ch2.nodes.map Prod.fst = (removeMid ch nodeName).nodes.map Prod.fst :=
      (redistribute_fields _ _ _ hok).2.2.2
    have hch2nodup : (ch2.nodes.map Prod.fst).Nodup := by
      rw [hch2names, hmn]
      exact nodup_keys_aerase hwf.nodesNodup
    intro p hp e he
    have halk : alookup ch2.nodes p.1 = some p.2 := by
      apply alookup_eq_some_of_mem hch2nodup
      rw [show (p.1, p.2) = p from rfl]
      exact hp
    obtain ⟨st, hst, hmem⟩ := redistribute_mem data _ _ hok p.1 p.2 halk
    have hpn : p.1 ≠ nodeName := by
      intro hpn1
      have hsm : (alookup (removeMid ch nodeName).nodes p.1).isSome := by
        rw [hst]
        rfl
      rw [alookup_isSome_iff_mem_keys, hmn, keys_aerase, List.mem_filter] at hsm
      have hne2 : ¬ p.1 = nodeName := by simpa using hsm.2
      exact hne2 hpn1
    have hchst : alookup ch.nodes p.1 = some st := by
      rw [hmn] at hst
      rw [← alookup_aerase_ne ch.nodes hpn]
      exact hst
    rw [GetNode_ext hch2ring hch2hash e.1]
    rcases hmem e he with hold | hnew
    · -- record untouched by the removal
      have hinv0 := hinv (p.1, st) (mem_of_alookup_eq_some hchst) e hold
      rw [GetNode_eq_resolveSpec ch e.1 hwf.ringSorted] at hinv0
      unfold resolveSpec at hinv0
      cases hpos : posOf ch.ring (hashKey e.1) with
      | none => rw [hpos] at hinv0; exact absurd hinv0 (by simp)
      | some p0 =>
        rw [hpos] at hinv0
        injection hinv0 with hown0
        have hp0r : p0 ∈ ch.ring := posOf_mem hpos
        have hp0some : (alookup ch.hashMap p0).isSome := by
          rw [alookup_isSome_iff_mem_keys]
          exact hwf.ringSub p0 hp0r
        obtain ⟨q0, hq0⟩ := Option.isSome_iff_exists.mp hp0some
        have hq0p : q0 = p.1 := by
          rw [hq0] at hown0
          exact hown0
        have hp0R : ¬ p0 ∈ vnodeHashes nodeName ch.vnodes := by
          intro hin
          have := ownedOnlyBy_alookup hown hin hq0
          rw [hq0p] at this
          exact hpn this
        have hpos1 : posOf (removeMid ch nodeName).ring (hashKey e.1) = some p0 := by
          rw [hmr]
          exact posOf_filter_not_mem hpos hp0R
        rw [GetNode_eq_resolveSpec _ _ hmidsort]
        unfold resolveSpec
        rw [hpos1]
        show Except.ok ((alookup (removeMid ch nodeName).hashMap p0).getD "") =
          Except.ok p.1
        rw [hmh, alookup_filter_not_mem, if_neg hp0R, hq0]
        rw [show (some q0).getD "" = q0 from rfl, hq0p]
    · -- record arriving from the removed node's snapshot
      obtain ⟨_, hres⟩ := hnew
      have hmidne : (removeMid ch nodeName).ring ≠ [] := by
        intro hnil
        have hp1mem : p.1 ∈ ch.nodes.map Prod.fst := by
          have hsm : (alookup (removeMid ch nodeName).nodes p.1).isSome := by
            rw [hst]
            rfl
          rw [alookup_isSome_iff_mem_keys, hmn, keys_aerase, List.mem_filter] at hsm
          exact hsm.1
        obtain ⟨en, hen, heq⟩ := List.mem_map.mp hp1mem
        obtain ⟨e2, he2, he2v⟩ := hwf.presence en hen
        have he2r : e2.1 ∈ ch.ring := hwf.hashSub e2 he2
        have he2R : e2.1 ∈ vnodeHashes nodeName ch.vnodes := by
          by_contra hnotR
          have hmm : e2.1 ∈ (removeMid ch nodeName).ring := by
            rw [hmr]
            exact List.mem_filter.mpr ⟨he2r, by simpa using hnotR⟩
          rw [hnil] at hmm
          simp at hmm
        have hisname := hown e2.1 he2R e2 he2 rfl
        rw [he2v] at hisname
        rw [heq] at hisname
        exact hpn hisname
      rw [GetNode_ok_of_ring_ne e.1 hmidne, hres]

end CHSim

namespace CHSim

/-! ## Concrete cluster states used by witnesses and counterexamples -/

/-- Single-node cluster: one VNode per node, node `A`. -/
def exA : ConsistentHashing := (AddNode (NewConsistentHashing 1) "A").1

/-- Two-node cluster `A`, `B`. -/
def exAB : ConsistentHashing := (AddNode exA "B").1

/-- Two-node cluster seeded with one record on `A` (key `user_37`). -/
def exABk1 : ConsistentHashing :=
  (distributeKey exAB "user_37" "v37").getD (NewConsistentHashing 0)

/-- Two-node cluster seeded with a record on each node. -/
def exABk : ConsistentHashing :=
  (distributeKey exABk1 "key_1" "v1").getD (NewConsistentHashing 0)

/-- Result of gracefully removing `B` from the seeded two-node cluster. -/
def exRemB : ConsistentHashing :=
  match RemoveNode exABk "B" with
  | RemoveResult.ok c => c
  | _ => NewConsistentHashing 0

/-- Single-node cluster holding one record. -/
def exAk : ConsistentHashing :=
  (distributeKey exA "k1" "v1").getD (NewConsistentHashing 0)

/-- Two nodes whose VNode keys collide under CRC32:
`hashKey "plumless#0" = hashKey "buckeroo#0"`. -/
def cexDup : ConsistentHashing :=
  (AddNode ((AddNode (NewConsistentHashing 1) "plumless").1) "buckeroo").1

/-- The colliding cluster seeded with one record (stored on `buckeroo`). -/
def cexPre : ConsistentHashing :=
  (distributeKey cexDup "user_1" "x").getD (NewConsistentHashing 0)

/-- Result of removing `plumless` from the seeded colliding cluster. -/
def cexPost : ConsistentHashing :=
  match RemoveNode cexPre "plumless" with
  | RemoveResult.ok c => c
  | _ => NewConsistentHashing 0

/-- Result of removing the sole node `A` (with an empty store). -/
def cexC9post : ConsistentHashing :=
  match RemoveNode exA "A" with
  | RemoveResult.ok c => c
  | _ => NewConsistentHashing 0

/-! ## Claim C4 -/

/-- C4: on a sorted ring, `GetNode`, implemented by binary search
(`sort.Search`), returns exactly what the spec's ownership rule describes:
the owner of the first VNode position at or past the key's hash
(`resolveSpec`), and when the hash exceeds every position it wraps around
to the owner of the smallest position. -/
theorem C4_resolve_binary_search :
    ∀ (ch : ConsistentHashing) (key : String), List.Sorted (· ≤ ·) ch.ring →
      GetNode ch key = resolveSpec ch key ∧
      ((∀ q ∈ ch.ring, q < hashKey key) → ∀ p, listMin ch.ring = some p →
        GetNode ch key = Except.ok ((alookup ch.hashMap p).getD "")) := by
  intro ch key hs
  refine ⟨GetNode_eq_resolveSpec ch key hs, ?_⟩
  intro hall p hmin
  rw [GetNode_eq_resolveSpec ch key hs]
  unfold resolveSpec
  have hleast : leastGE ch.ring (hashKey key) = none := by
    unfold leastGE
    rw [listMin_eq_none_iff, List.filter_eq_nil_iff]
    intro a ha
    simpa using Nat.not_le.mpr (hall a ha)
  have hpos : posOf ch.ring (hashKey key) = some p := by
    simp only [posOf, hleast]
    exact hmin
  rw [hpos]

/-- Witness for C4 on a concrete two-node ring with a wrap-around key. -/
theorem C4_resolve_binary_search_witness :
    GetNode exAB "zz_0" = resolveSpec exAB "zz_0" ∧
    GetNode exAB "zz_0" = Except.ok ((alookup exAB.hashMap 338675569).getD "") :=
  ⟨(C4_resolve_binary_search exAB "zz_0" (by decide)).1,
   (C4_resolve_binary_search exAB "zz_0" (by decide)).2 (by decide) 338675569 (by decide)⟩

/-! ## Claim C6 -/

/-- C6: `GetNode` signals `EmptyRing` exactly when no VNode position is
registered, and on a non-empty ring it always returns an owner name,
never an error. -/
theorem C6_emptyRing_error :
    ∀ (ch : ConsistentHashing) (key : String),
      (GetNode ch key = Except.error ChErr.emptyRing ↔ ch.ring = []) ∧
      (ch.ring ≠ [] → ∃ nm, GetNode ch key = Except.ok nm) :=
  fun ch key =>
    ⟨GetNode_error_iff ch key,
     fun h => ⟨getNodeStr ch key, GetNode_ok_of_ring_ne key h⟩⟩

/-- Witness for C6: the empty ring errs, the one-node ring answers. -/
theorem C6_emptyRing_error_witness :
    GetNode (NewConsistentHashing 1) "anykey" = Except.error ChErr.emptyRing ∧
    (∃ nm, GetNode exA "anykey" = Except.ok nm) :=
  ⟨(C6_emptyRing_error (NewConsistentHashing 1) "anykey").1.mpr rfl,
   (C6_emptyRing_error exA "anykey").2 (by decide)⟩

/-! ## Claim C7 -/

/-- C7: `AddNode` on an already-registered (`Active`) name signals
`NodeAlreadyExists` and returns the state completely unchanged — in
particular the ring, the owner mapping and every store are untouched and
the node's VNode count is not doubled. -/
theorem C7_addNode_already_exists :
    ∀ (ch : ConsistentHashing) (nodeName : String),
      nodeName ∈ ch.nodes.map Prod.fst →
      AddNode ch nodeName = (ch, some ChErr.nodeAlreadyExists) :=
  fun _ _ h => AddNode_eq_exists (alookup_isSome_iff_mem_keys.mpr h)

/-- Witness for C7: a second `AddNode "A"` is rejected without mutation. -/
theorem C7_addNode_already_exists_witness :
    "A" ∈ exA.nodes.map Prod.fst ∧
    AddNode exA "A" = (exA, some ChErr.nodeAlreadyExists) :=
  ⟨by decide, C7_addNode_already_exists exA "A" (by decide)⟩

/-! ## Claim C8 -/

/-- C8: `RemoveNode` on a name that is not `Active` signals `NodeNotFound`;
the early return precedes every mutation, so the cluster state the caller
holds is untouched. -/
theorem C8_removeNode_not_found :
    ∀ (ch : ConsistentHashing) (nodeName : String),
      ¬ nodeName ∈ ch.nodes.map Prod.fst →
      RemoveNode ch nodeName = RemoveResult.notFound :=
  fun _ _ h => RemoveNode_eq_notFound (alookup_eq_none_iff.mpr h)

/-- Witness for C8 on a cluster that does not contain node `Z`. -/
theorem C8_removeNode_not_found_witness :
    ¬ "Z" ∈ exA.nodes.map Prod.fst ∧
    RemoveNode exA "Z" = RemoveResult.notFound :=
  ⟨by decide, C8_removeNode_not_found exA "Z" (by decide)⟩

end CHSim

namespace CHSim

/-! ## Claim C2 -/

/-- C2: minimal disturbance.  After `AddNode(Y)`, every record whose
resolved owner under the post-insertion ring is not `Y` is still present,
with its value, in its original node's store; after a completed
`RemoveNode(X)`, every record that was not stored on `X` is still present,
with its value, in its original node's store. -/
theorem C2_minimal_disturbance :
    ∀ (ch : ConsistentHashing) (nodeName : String),
      (ch.nodes.map Prod.fst).Nodup → Disj ch →
      (∀ q st k v, q ≠ nodeName → alookup ch.nodes q = some st → (k, v) ∈ st →
        getNodeStr (AddNode ch nodeName).1 k ≠ nodeName →
        ∃ st2, alookup (AddNode ch nodeName).1.nodes q = some st2 ∧ (k, v) ∈ st2) ∧
      (∀ ch2 q st k v, RemoveNode ch nodeName = RemoveResult.ok ch2 →
        q ≠ nodeName → alookup ch.nodes q = some st → (k, v) ∈ st →
        ∃ st2, alookup ch2.nodes q = some st2 ∧ (k, v) ∈ st2) := by
  intro ch nodeName hnn hdisj
  constructor
  · intro q st k v hq hst hkv hres
    by_cases hex : (alookup ch.nodes nodeName).isSome
    · rw [AddNode_fst_exists hex]
      exact ⟨st, hst, hkv⟩
    · have hfree : alookup ch.nodes nodeName = none := by
        cases h : alookup ch.nodes nodeName with
        | none => rfl
        | some w => rw [h] at hex; exact absurd rfl hex
      rw [AddNode_final_src hfree hnn hq, hst]
      simp only [Option.map_some']
      refine ⟨_, rfl, ?_⟩
      rw [List.mem_filter]
      refine ⟨hkv, ?_⟩
      simp only [decide_eq_true_eq]
      intro hmv
      rw [mem_collectMoves] at hmv
      obtain ⟨_, hres2, _⟩ := hmv
      apply hres
      have hgsf : getNodeStr (AddNode ch nodeName).1 k =
          getNodeStr (addMid ch nodeName) k := by
        unfold getNodeStr
        rw [AddNode_final_GetNode hfree]
      rw [hgsf]
      exact hres2
  · intro ch2 q st k v hok hq hst hkv
    cases hlk : alookup ch.nodes nodeName with
    | none =>
      rw [RemoveNode_eq_notFound hlk] at hok
      exact absurd hok (by simp)
    | some data =>
      rw [RemoveNode_eq_go hlk] at hok
      have hkd : ¬ k ∈ data.map Prod.fst :=
        disj_pairs hdisj (mem_of_alookup_eq_some hst) (mem_of_alookup_eq_some hlk)
          hq k (List.mem_map_of_mem Prod.fst hkv)
      have hmidst : alookup (removeMid ch nodeName).nodes q = some st := by
        rw [(removeMid_fields ch nodeName).2.2.1, alookup_aerase_ne _ hq]
        exact hst
      exact redistribute_pres data _ _ hok q st (k, v) hmidst hkv hkd

/-- Witness for C2: `key_1` stays on `B` across `AddNode "C"`, and
`user_37` stays on `A` across `RemoveNode "B"`. -/
theorem C2_minimal_disturbance_witness :
    (∃ st2, alookup (AddNode exABk "C").1.nodes "B" = some st2 ∧ ("key_1", "v1") ∈ st2) ∧
    (∃ st2, alookup exRemB.nodes "A" = some st2 ∧ ("user_37", "v37") ∈ st2) :=
  ⟨(C2_minimal_disturbance exABk "C" (by decide) (by decide)).1 "B"
      [("key_1", "v1")] "key_1" "v1" (by decide) (by decide) (by decide) (by decide),
   (C2_minimal_disturbance exABk "B" (by decide) (by decide)).2 exRemB "A"
      [("user_37", "v37")] "user_37" "v37" (by decide) (by decide) (by decide) (by decide)⟩

/-! ## Claim C3 -/

/-- C3: conservation.  The total record count summed over all stores is
unchanged by any `AddNode` call and by any completed `RemoveNode` call:
no key is created, duplicated or destroyed by a membership change. -/
theorem C3_conservation :
    ∀ (ch : ConsistentHashing) (nodeName : String),
      (ch.nodes.map Prod.fst).Nodup →
      (∀ p ∈ ch.nodes, (p.2.map Prod.fst).Nodup) →
      Disj ch →
      totalRecords (AddNode ch nodeName).1 = totalRecords ch ∧
      (∀ ch2, RemoveNode ch nodeName = RemoveResult.ok ch2 →
        totalRecords ch2 = totalRecords ch) := by
  intro ch nodeName hnn hstn hdisj
  constructor
  · by_cases hex : (alookup ch.nodes nodeName).isSome
    · rw [AddNode_fst_exists hex]
    · have hfree : alookup ch.nodes nodeName = none := by
        cases h : alookup ch.nodes nodeName with
        | none => rfl
        | some w => rw [h] at hex; exact absurd rfl hex
      exact AddNode_total hfree hnn hstn hdisj
  · intro ch2 hok
    cases hlk : alookup ch.nodes nodeName with
    | none =>
      rw [RemoveNode_eq_notFound hlk] at hok
      exact absurd hok (by simp)
    | some data =>
      rw [RemoveNode_eq_go hlk] at hok
      have hdkeys : (data.map Prod.fst).Nodup :=
        hstn (nodeName, data) (mem_of_alookup_eq_some hlk)
      have hfresh : ∀ e ∈ data, ∀ p ∈ (removeMid ch nodeName).nodes,
          ¬ e.1 ∈ p.2.map Prod.fst := by
        intro e hedata p hp hkp
        rw [(removeMid_fields _ _).2.2.1, mem_aerase] at hp
        exact disj_pairs hdisj
          (show (p.1, p.2) ∈ ch.nodes from (by rw [show (p.1, p.2) = p from rfl]; exact hp.1))
          (mem_of_alookup_eq_some hlk) hp.2 e.1 hkp
          (List.mem_map_of_mem Prod.fst hedata)
      have htot := redistribute_total data _ _ hok hdkeys hfresh
      have hsum := sum_lens_aerase ch.nodes hnn hlk
      have hmid : totalRecords (removeMid ch nodeName) =
          ((aerase ch.nodes nodeName).map (fun p => p.2.length)).sum := by
        unfold totalRecords
        rw [(removeMid_fields _ _).2.2.1]
      have hch : totalRecords ch = (ch.nodes.map (fun p => p.2.length)).sum := rfl
      omega

/-- Witness for C3 on the seeded two-node cluster. -/
theorem C3_conservation_witness :
    totalRecords (AddNode exABk "C").1 = totalRecords exABk ∧
    totalRecords exRemB = totalRecords exABk :=
  ⟨(C3_conservation exABk "C" (by decide) (by decide) (by decide)).1,
   (C3_conservation exABk "B" (by decide) (by decide) (by decide)).2 exRemB (by decide)⟩

/-! ## Claim C10 -/

/-- C10: migration preserves record values.  Every record present before
an `AddNode` call, or before a completed `RemoveNode` call, is present
after it in some node's store with the same value (so for every key stored
both before and after, its value is unchanged). -/
theorem C10_value_preservation :
    ∀ (ch : ConsistentHashing) (nodeName : String),
      (ch.nodes.map Prod.fst).Nodup →
      (∀ p ∈ ch.nodes, (p.2.map Prod.fst).Nodup) →
      Disj ch →
      (∀ q st k v, alookup ch.nodes q = some st → (k, v) ∈ st →
        ∃ q2 st2, alookup (AddNode ch nodeName).1.nodes q2 = some st2 ∧ (k, v) ∈ st2) ∧
      (∀ ch2 q st k v, RemoveNode ch nodeName = RemoveResult.ok ch2 →
        alookup ch.nodes q = some st → (k, v) ∈ st →
        ∃ q2 st2, alookup ch2.nodes q2 = some st2 ∧ (k, v) ∈ st2) := by
  intro ch nodeName hnn hstn hdisj
  constructor
  · intro q st k v hst hkv
    by_cases hex : (alookup ch.nodes nodeName).isSome
    · rw [AddNode_fst_exists hex]
      exact ⟨q, st, hst, hkv⟩
    · have hfree : alookup ch.nodes nodeName = none := by
        cases h : alookup ch.nodes nodeName with
        | none => rfl
        | some w => rw [h] at hex; exact absurd rfl hex
      have hqn : q ≠ nodeName := by
        intro h
        rw [h, hfree] at hst
        exact absurd hst (by simp)
      by_cases hmv : (q, k) ∈ collectMoves (addMid ch nodeName) nodeName
      · refine ⟨nodeName, _, AddNode_final_name hfree hnn hstn hdisj, ?_⟩
        have hv : (alookup (dataOf (addMid ch nodeName) q) k).getD "" = v := by
          unfold dataOf
          rw [addMid_alookup_ne hqn, hst]
          show (alookup st k).getD "" = v
          rw [alookup_eq_some_of_mem (hstn (q, st) (mem_of_alookup_eq_some hst)) hkv]
          rfl
        have hmem := List.mem_map_of_mem
          (fun m => (m.2, (alookup (dataOf (addMid ch nodeName) m.1) m.2).getD "")) hmv
        simp only at hmem
        rw [hv] at hmem
        exact hmem
      · refine ⟨q, _, by rw [AddNode_final_src hfree hnn hqn, hst]; rfl, ?_⟩
        rw [List.mem_filter]
        exact ⟨hkv, by simpa using hmv⟩
  · intro ch2 q st k v hok hst hkv
    cases hlk : alookup ch.nodes nodeName with
    | none =>
      rw [RemoveNode_eq_notFound hlk] at hok
      exact absurd hok (by simp)
    | some data =>
      rw [RemoveNode_eq_go hlk] at hok
      by_cases hqn : q = nodeName
      · have hdeq : st = data := by
          rw [hqn, hlk] at hst
          injection hst with hst
          exact hst.symm
        have hdkeys : (data.map Prod.fst).Nodup :=
          hstn (nodeName, data) (mem_of_alookup_eq_some hlk)
        obtain ⟨st2, hst2, he2⟩ := redistribute_forward data _ _ hok hdkeys (k, v)
          (hdeq ▸ hkv)
        exact ⟨_, st2, hst2, he2⟩
      · have hkd : ¬ k ∈ data.map Prod.fst :=
          disj_pairs hdisj (mem_of_alookup_eq_some hst) (mem_of_alookup_eq_some hlk)
            hqn k (List.mem_map_of_mem Prod.fst hkv)
        have hmidst : alookup (removeMid ch nodeName).nodes q = some st := by
          rw [(removeMid_fields ch nodeName).2.2.1, alookup_aerase_ne _ hqn]
          exact hst
        obtain ⟨st2, hst2, he2⟩ := redistribute_pres data _ _ hok q st (k, v) hmidst hkv hkd
        exact ⟨q, st2, hst2, he2⟩

/-- Witness for C10: the record on `B` survives `AddNode "C"` unchanged,
and survives `RemoveNode "B"` by migrating to `A` with its value. -/
theorem C10_value_preservation_witness :
    (∃ q2 st2, alookup (AddNode exABk "C").1.nodes q2 = some st2 ∧ ("key_1", "v1") ∈ st2) ∧
    (∃ q2 st2, alookup exRemB.nodes q2 = some st2 ∧ ("key_1", "v1") ∈ st2) :=
  ⟨(C10_value_preservation exABk "C" (by decide) (by decide) (by decide)).1 "B"
      [("key_1", "v1")] "key_1" "v1" (by decide) (by decide),
   (C10_value_preservation exABk "B" (by decide) (by decide) (by decide)).2 exRemB "B"
      [("key_1", "v1")] "key_1" "v1" (by decide) (by decide) (by decide)⟩

end CHSim

namespace CHSim

theorem addMid_ring_eq (ch : ConsistentHashing) (nodeName : String) :
    (addMid ch nodeName).ring =
      List.insertionSort (fun a b => a ≤ b) (ch.ring ++ vnodeHashes nodeName ch.vnodes) := by
  unfold addMid vnodeHashes
  simp only
  rw [addVnodes_ring]

/-! ## Claim C1 -/

/-- C1 counterexample: a reachable, invariant-satisfying cluster in which
the VNode keys of `plumless` and `buckeroo` share their CRC32 hash.
`RemoveNode "plumless"` completes normally but strips the shared position,
emptying the ring while a record is still stored on `buckeroo`, so the
stored record no longer matches `resolve` — the claim's invariant is
violated after the call returns. -/
theorem C1_counterexample :
    Reachable cexPre ∧ PlacementInv cexPre ∧
    RemoveNode cexPre "plumless" = RemoveResult.ok cexPost ∧
    ¬ PlacementInv cexPost := by
  refine ⟨?_, by decide, by decide, by decide⟩
  exact Reachable.seed "user_1" "x"
    (Reachable.add "buckeroo" (Reachable.add "plumless" (Reachable.init 1)))
    (by decide)

/-- C1 as amended: `AddNode` always restores the placement invariant on
well-formed invariant-satisfying clusters; a completed `RemoveNode`
restores it provided additionally that every owner-mapping entry at one of
the removed node's VNode hash positions belongs to the removed node itself
(`OwnedOnlyBy`, i.e. no cross-node CRC32 collision touches its
positions). -/
theorem C1_amended_invariant_restoration :
    ∀ (ch : ConsistentHashing) (nodeName : String), WF ch → PlacementInv ch →
      PlacementInv (AddNode ch nodeName).1 ∧
      (∀ ch2, OwnedOnlyBy ch nodeName → RemoveNode ch nodeName = RemoveResult.ok ch2 →
        PlacementInv ch2) :=
  fun _ nodeName hwf hinv =>
    ⟨addNode_placementInv nodeName hwf hinv,
     fun _ hown hok => removeNode_placementInv hwf hinv hown hok⟩

/-- Witness for the amended C1 on the seeded two-node cluster. -/
theorem C1_amended_invariant_restoration_witness :
    PlacementInv (AddNode exABk "C").1 ∧ PlacementInv exRemB :=
  ⟨(C1_amended_invariant_restoration exABk "C" (by constructor <;> decide) (by decide)).1,
   (C1_amended_invariant_restoration exABk "B" (by constructor <;> decide) (by decide)).2
     exRemB (by decide) (by decide)⟩

/-! ## Claim C5 -/

/-- C5 counterexample: after reachable calls `AddNode "plumless"` then
`AddNode "buckeroo"` (whose VNode keys share their CRC32 hash), the ring
holds the same position twice — the "no duplicate positions" part of the
claimed invariant fails at a reachable state. -/
theorem C5_counterexample :
    Reachable cexDup ∧ ¬ cexDup.ring.Nodup := by
  refine ⟨?_, by decide⟩
  exact Reachable.add "buckeroo" (Reachable.add "plumless" (Reachable.init 1))

/-- C5 as amended: sortedness and the agreement between ring positions and
owner-mapping keys are preserved by `AddNode` and by completed
`RemoveNode` calls unconditionally; freedom from duplicates is preserved
provided the inserted VNode hashes are pairwise distinct and distinct from
every current ring position (no hash collision). -/
theorem C5_amended_ring_index :
    ∀ (ch : ConsistentHashing) (nodeName : String),
      List.Sorted (· ≤ ·) ch.ring →
      (∀ h ∈ ch.ring, h ∈ ch.hashMap.map Prod.fst) →
      (∀ e ∈ ch.hashMap, e.1 ∈ ch.ring) →
      (List.Sorted (· ≤ ·) (AddNode ch nodeName).1.ring ∧
        (∀ h ∈ (AddNode ch nodeName).1.ring,
          h ∈ (AddNode ch nodeName).1.hashMap.map Prod.fst) ∧
        (∀ e ∈ (AddNode ch nodeName).1.hashMap, e.1 ∈ (AddNode ch nodeName).1.ring)) ∧
      (ch.ring.Nodup → (vnodeHashes nodeName ch.vnodes).Nodup →
        (∀ h ∈ vnodeHashes nodeName ch.vnodes, ¬ h ∈ ch.ring) →
        (AddNode ch nodeName).1.ring.Nodup) ∧
      (∀ ch2, RemoveNode ch nodeName = RemoveResult.ok ch2 →
        List.Sorted (· ≤ ·) ch2.ring ∧
        (∀ h ∈ ch2.ring, h ∈ ch2.hashMap.map Prod.fst) ∧
        (∀ e ∈ ch2.hashMap, e.1 ∈ ch2.ring) ∧
        (ch.ring.Nodup → ch2.ring.Nodup)) := by
  intro ch nodeName hsort hsub1 hsub2
  refine ⟨?_, ?_, ?_⟩
  · by_cases hex : (alookup ch.nodes nodeName).isSome
    · rw [AddNode_fst_exists hex]
      exact ⟨hsort, hsub1, hsub2⟩
    · have hfree : alookup ch.nodes nodeName = none := by
        cases h : alookup ch.nodes nodeName with
        | none => rfl
        | some w => rw [h] at hex; exact absurd rfl hex
      rw [AddNode_final_ring hfree, AddNode_final_hashMap hfree]
      refine ⟨addMid_ring_sorted ch nodeName, ?_, ?_⟩
      · intro h hmem
        apply alookup_isSome_iff_mem_keys.mp
        rw [addMid_hashMap]
        by_cases hH : h ∈ vnodeHashes nodeName ch.vnodes
        · rw [if_pos hH]
          rfl
        · rw [if_neg hH]
          rcases (addMid_ring_mem _ _ _).mp hmem with h1 | h1
          · exact alookup_isSome_iff_mem_keys.mpr (hsub1 h h1)
          · exact absurd h1 hH
      · intro e hmemE
        have hk : (alookup (addMid ch nodeName).hashMap e.1).isSome :=
          alookup_isSome_iff_mem_keys.mpr (List.mem_map_of_mem Prod.fst hmemE)
        rw [addMid_hashMap] at hk
        by_cases hH : e.1 ∈ vnodeHashes nodeName ch.vnodes
        · exact (addMid_ring_mem _ _ _).mpr (Or.inr hH)
        · rw [if_neg hH] at hk
          have hk2 : e.1 ∈ ch.hashMap.map Prod.fst := alookup_isSome_iff_mem_keys.mp hk
          obtain ⟨e2, he2, he2eq⟩ := List.mem_map.mp hk2
          have hr := hsub2 e2 he2
          rw [he2eq] at hr
          exact (addMid_ring_mem _ _ _).mpr (Or.inl hr)
  · intro hnd hndH hfresh
    by_cases hex : (alookup ch.nodes nodeName).isSome
    · rw [AddNode_fst_exists hex]
      exact hnd
    · have hfree : alookup ch.nodes nodeName = none := by
        cases h : alookup ch.nodes nodeName with
        | none => rfl
        | some w => rw [h] at hex; exact absurd rfl hex
      rw [AddNode_final_ring hfree, addMid_ring_eq]
      rw [(List.perm_insertionSort _ _).nodup_iff, List.nodup_append]
      exact ⟨hnd, hndH, fun a ha hA => hfresh a hA ha⟩
  · intro ch2 hok
    cases hlk : alookup ch.nodes nodeName with
    | none =>
      rw [RemoveNode_eq_notFound hlk] at hok
      exact absurd hok (by simp)
    | some data =>
      rw [RemoveNode_eq_go hlk] at hok
      obtain ⟨hmr, hmh, _, _⟩ := removeMid_fields ch nodeName
      have hr2 : ch2.ring = (removeMid ch nodeName).ring := (redistribute_fields _ _ _ hok).1
      have hh2 : ch2.hashMap = (removeMid ch nodeName).hashMap :=
        (redistribute_fields _ _ _ hok).2.1
      rw [hr2, hh2, hmr, hmh]
      refine ⟨hsort.filter _, ?_, ?_, fun hnd => hnd.filter _⟩
      · intro h hmem
        rw [List.mem_filter] at hmem
        obtain ⟨hmem, hpred⟩ := hmem
        obtain ⟨e2, he2, he2eq⟩ := List.mem_map.mp (hsub1 h hmem)
        exact List.mem_map.mpr
          ⟨e2, List.mem_filter.mpr ⟨he2, by rw [he2eq]; exact hpred⟩, he2eq⟩
      · intro e hmem
        rw [List.mem_filter] at hmem
        exact List.mem_filter.mpr ⟨hsub2 e hmem.1, hmem.2⟩

/-- Witness for the amended C5 on the seeded two-node cluster. -/
theorem C5_amended_ring_index_witness :
    (AddNode exABk "C").1.ring.Nodup ∧
    List.Sorted (· ≤ ·) exRemB.ring ∧ exRemB.ring.Nodup := by
  refine ⟨?_, ?_, ?_⟩
  · exact (C5_amended_ring_index exABk "C" (by decide) (by decide) (by decide)).2.1
      (by decide) (by decide) (by decide)
  · exact ((C5_amended_ring_index exABk "B" (by decide) (by decide) (by decide)).2.2 exRemB
      (by decide)).1
  · exact ((C5_amended_ring_index exABk "B" (by decide) (by decide) (by decide)).2.2 exRemB
      (by decide)).2.2.2 (by decide)

/-! ## Claim C9 -/

/-- C9 counterexample: removing the sole node while its store is empty
completes without fault even though the post-removal ring is empty, so
completion does not require a non-empty ring as the claim states. -/
theorem C9_counterexample :
    Reachable exA ∧ RemoveNode exA "A" = RemoveResult.ok cexC9post ∧
    cexC9post.ring = [] := by
  refine ⟨?_, by decide, by decide⟩
  exact Reachable.add "A" (Reachable.init 1)

/-- C9 as amended: a completed `RemoveNode` guarantees that the resolved
new owner of every snapshotted record is a registered node (the
redistribution loop discards the resolution error and writes into the
looked-up store, faulting on an unregistered owner); in particular,
removing the sole remaining node while its store is non-empty hits the
nil-map write (a Go panic) instead of returning an error. -/
theorem C9_amended_remove_fault :
    (∀ (ch ch2 : ConsistentHashing) (nodeName : String) (data : List (String × String)),
      RemoveNode ch nodeName = RemoveResult.ok ch2 →
      alookup ch.nodes nodeName = some data →
      ∀ e ∈ data, (alookup ch2.nodes (getNodeStr ch2 e.1)).isSome) ∧
    (∀ (ch : ConsistentHashing) (nodeName : String) (store : List (String × String)),
      ch.nodes = [(nodeName, store)] → store ≠ [] →
      RemoveNode ch nodeName = RemoveResult.fault) := by
  constructor
  · intro ch ch2 nodeName data hok hlk e hedata
    rw [RemoveNode_eq_go hlk] at hok
    have hgs : getNodeStr ch2 e.1 = getNodeStr (removeMid ch nodeName) e.1 :=
      redistribute_getNodeStr (redistribute_fields _ _ _ hok).1
        (redistribute_fields _ _ _ hok).2.1 e.1
    rw [hgs]
    exact redistribute_targets data _ _ hok e hedata
  · intro ch nodeName store hnodes hne
    have hlk : alookup ch.nodes nodeName = some store := by
      rw [hnodes]
      simp [alookup]
    rw [RemoveNode_eq_go hlk]
    have hmn : (removeMid ch nodeName).nodes = [] := by
      rw [(removeMid_fields _ _).2.2.1, hnodes, aerase_cons_self, aerase_nil]
    cases store with
    | nil => exact absurd rfl hne
    | cons e rest =>
      simp only [redistribute]
      rw [hmn]
      rfl

/-- Witness for the amended C9: the record removed with `B` lands on a
registered node, and removing the sole node with a non-empty store
faults. -/
theorem C9_amended_remove_fault_witness :
    (alookup exRemB.nodes (getNodeStr exRemB "key_1")).isSome ∧
    RemoveNode exAk "A" = RemoveResult.fault :=
  ⟨C9_amended_remove_fault.1 exABk exRemB "B" [("key_1", "v1")] (by decide) (by decide)
      ("key_1", "v1") (by decide),
   C9_amended_remove_fault.2 exAk "A" [("k1", "v1")] (by decide) (by decide)⟩

end CHSim
